import Mathlib

/-!
The packed feed-forward network engine of neat-o (`src/src/nn/nn.c`).

A shallow embedding of the network engine and the properties of its layout,
evaluation, growth and addressing.

Modelling conventions.

* `float`.  The first part computes in an arbitrary linearly ordered field `α`
  (exact arithmetic); the library function `exp` is a parameter `expf`, and
  concrete runs use `ℚ`.  The part on `float` arithmetic runs the same code
  over an arbitrary carrier with arbitrary operations (`float_ops`), of which
  exact arithmetic is an instance (`exact_nn_ffnet_run`) and `xfloat`, a
  carrier with infinities and NaN, another.
* `size_t` quantities are natural numbers.  The layout calculator and
  `nn_ffnet_create` take sums and products of the topology scalars without
  wraparound; the calculator and `nn_ffnet_create` of namespace `size_t`
  compute modulo `2 ^ 64` and agree with them for every topology whose block
  size is below `2 ^ 64` (`create_of_fits`).  The `size_t` subtractions of
  `nn_ffnet_add_hidden_layer`, which do wrap at small topologies, go through
  `size_sub` or, where the difference displaces a pointer, are signed.
* The block behind the header is three segments, `weight`, `output` and
  `activation`, each a list.  A read, a write or a `memcpy` whose range leaves
  its segment, and a failed `assert`, make the operation return `none`; the
  first weight copy of `nn_ffnet_add_hidden_layer`, which can be longer than
  the weight segment, is followed through the block (`memcpy_block`).
* A `char` activation tag is a natural number.
* `nn_ffnet_destroy` frees the block and has no counterpart: a network is a
  value.
-/

set_option linter.unusedVariables false

/-! ## Activation functions -/

/-- Modelled from the spec: `nn.h`, which declares `enum nn_activation`, is not
among the sources; the spec fixes passthrough as numeric tag 0. -/
def NN_ACTIVATION_PASSTHROUGH : Nat := 0

/-- Modelled from the spec: the enumerator of the sigmoid, numbered in the order
of the `switch` of `nn_activate`. -/
def NN_ACTIVATION_SIGMOID : Nat := 1

/-- Modelled from the spec: the enumerator of the fast sigmoid, numbered in the
order of the `switch` of `nn_activate`. -/
def NN_ACTIVATION_FAST_SIGMOID : Nat := 2

/-- Modelled from the spec: the enumerator of the rectifier, numbered in the
order of the `switch` of `nn_activate`. -/
def NN_ACTIVATION_RELU : Nat := 3

/-- `nn_sigmoid`: the clamped logistic function. -/
def nn_sigmoid {α : Type} [LinearOrderedField α] (expf : α → α) (input : α) : α :=
  if input < -45 then 0
  else if input > 45 then 1
  else 1 / (1 + expf (-input))

/-- `nn_fast_sigmoid`. -/
def nn_fast_sigmoid {α : Type} [LinearOrderedField α] (input : α) : α :=
  input / (1 + |input|)

/-- `nn_relu`. -/
def nn_relu {α : Type} [LinearOrderedField α] (input : α) : α :=
  if input < 0 then 0 else input

/-- `nn_activate`: the `default:` branch is `assert(false)`. -/
def nn_activate {α : Type} [LinearOrderedField α] (expf : α → α) (activation : Nat)
    (input : α) : Option α :=
  if activation = NN_ACTIVATION_PASSTHROUGH then some input
  else if activation = NN_ACTIVATION_SIGMOID then some (nn_sigmoid expf input)
  else if activation = NN_ACTIVATION_FAST_SIGMOID then some (nn_fast_sigmoid input)
  else if activation = NN_ACTIVATION_RELU then some (nn_relu input)
  else none

/-! ## The network record -/

/-- `struct nn_ffnet` together with the three segments that follow it in the
same allocation. -/
structure nn_ffnet (α : Type) where
  ninputs : Nat
  nhiddens : Nat
  noutputs : Nat
  nhidden_layers : Nat
  nweights : Nat
  nneurons : Nat
  nactivations : Nat
  bias : α
  weight : List α
  output : List α
  activation : List Nat
  deriving DecidableEq

/-- `memcpy(dst + d, src + s, n)` in elements: `none` when a range leaves its
segment. -/
def memcpy {β : Type} (dst : List β) (d : Nat) (src : List β) (s n : Nat) : Option (List β) :=
  if d + n ≤ dst.length ∧ s + n ≤ src.length then
    some (dst.take d ++ ((src.drop s).take n ++ dst.drop (d + n)))
  else none

/-- Subtraction of two `size_t` values: the difference where it is not
negative, else wrapped modulo `2 ^ 64`. -/
def size_sub (a b : Nat) : Nat :=
  if b ≤ a then a - b else 2 ^ 64 - (b - a) % 2 ^ 64

/-- A pointer `base + a - b` as an offset into the segment of `base`: `none`
when it lies before the segment. -/
def ptr_back (a b : Nat) : Option Nat :=
  if b ≤ a then some (a - b) else none

/-- The bytes of a run of `float`s, as `char`s.  The one bit pattern the model
knows is that of `0.0f`, four zero bytes (the pattern `calloc` leaves, which
`nn_ffnet_create` takes for zero weights); a run with any other value has no
result. -/
def float_chars {α : Type} [Zero α] [DecidableEq α] : List α → Option (List Nat)
  | [] => some []
  | w :: ws => if w = 0 then (float_chars ws).map fun cs => 0 :: 0 :: 0 :: 0 :: cs else none

/-- `memcpy(net->weight, src, sizeof(float) * n)` on a block laid out by
`nn_ffnet_set_pointers`: the output segment starts where the weight segment
ends and the tag segment where the output segment ends, so a copy longer than
the weight segment runs on through the output floats and then through the
tags, four to a float.  `none` when the copy leaves the block or the source. -/
def memcpy_block {α : Type} [Zero α] [DecidableEq α] (weight output : List α)
    (activation : List Nat) (src : List α) (n : Nat) : Option (List α × List α × List Nat) :=
  if n ≤ weight.length then (memcpy weight 0 src 0 n).map fun w => (w, output, activation)
  else if n ≤ src.length ∧ 4 * n ≤ 4 * (weight.length + output.length) + activation.length then
    match float_chars ((src.take n).drop (weight.length + output.length)) with
    | none => none
    | some cs =>
      some
        (src.take weight.length,
          ((src.take n).drop weight.length).take output.length ++
            output.drop (n - weight.length),
          cs ++ activation.drop cs.length)
  else none

/-! ## Layout calculator

Sums and products without wraparound; see namespace `size_t` below for the
calculator modulo `2 ^ 64`. -/

/-- `nn_ffnet_hidden_weights`. -/
def nn_ffnet_hidden_weights (input_count hidden_count output_count hidden_layer_count : Nat) :
    Nat :=
  if hidden_layer_count = 0 then 0
  else
    let input_weights := (input_count + 1) * hidden_count
    let hidden_internal_weights := (hidden_layer_count - 1) * (hidden_count + 1) * hidden_count
    input_weights + hidden_internal_weights

/-- `nn_ffnet_output_weights`. -/
def nn_ffnet_output_weights (input_count hidden_count output_count hidden_layer_count : Nat) :
    Nat :=
  (if hidden_layer_count > 0 then hidden_count + 1 else input_count + 1) * output_count

/-- `nn_ffnet_total_weights`. -/
def nn_ffnet_total_weights (input_count hidden_count output_count hidden_layer_count : Nat) :
    Nat :=
  nn_ffnet_hidden_weights input_count hidden_count output_count hidden_layer_count +
    nn_ffnet_output_weights input_count hidden_count output_count hidden_layer_count

/-- `nn_ffnet_total_neurons`. -/
def nn_ffnet_total_neurons (input_count hidden_count output_count hidden_layer_count : Nat) :
    Nat :=
  input_count + hidden_count * hidden_layer_count + output_count

/-- `nn_ffnet_total_activations`. -/
def nn_ffnet_total_activations (hidden_count output_count hidden_layer_count : Nat) : Nat :=
  hidden_count * hidden_layer_count + output_count

/-! ## Allocation -/

/-- `nn_ffnet_create` for a block whose size does not wrap and which `calloc`
grants (`size_t.nn_ffnet_create` has the `size_t` arithmetic and the
allocator): the three `assert`s on the widths, then a zeroed block with the
header filled in. -/
def nn_ffnet_create {α : Type} [Zero α] [One α] [Neg α]
    (input_count hidden_count output_count hidden_layer_count : Nat) : Option (nn_ffnet α) :=
  if 0 < input_count ∧ 0 < output_count ∧ 0 < hidden_count then
    let total_weights :=
      nn_ffnet_total_weights input_count hidden_count output_count hidden_layer_count
    let total_neurons :=
      nn_ffnet_total_neurons input_count hidden_count output_count hidden_layer_count
    let total_activs :=
      nn_ffnet_total_activations hidden_count output_count hidden_layer_count
    if 0 < 4 * (total_weights + total_neurons) + total_activs then
      some
        { ninputs := input_count
          nhiddens := hidden_count
          noutputs := output_count
          nhidden_layers := hidden_layer_count
          nweights := total_weights
          nneurons := total_neurons
          nactivations := total_activs
          bias := -1
          weight := List.replicate total_weights 0
          output := List.replicate total_neurons 0
          activation := List.replicate total_activs 0 }
    else none
  else none

/-! ## The layout calculator and the allocation in `size_t` arithmetic -/

namespace size_t

/-- The sum `a + b` of two `size_t` values. -/
def add (a b : Nat) : Nat := (a + b) % 2 ^ 64

/-- The product `a * b` of two `size_t` values. -/
def mul (a b : Nat) : Nat := a * b % 2 ^ 64

/-- `nn_ffnet_hidden_weights`, each operation modulo `2 ^ 64`. -/
def nn_ffnet_hidden_weights (input_count hidden_count output_count hidden_layer_count : Nat) :
    Nat :=
  if hidden_layer_count = 0 then 0
  else
    let input_weights := mul (add input_count 1) hidden_count
    let hidden_internal_weights :=
      mul (mul (size_sub hidden_layer_count 1) (add hidden_count 1)) hidden_count
    add input_weights hidden_internal_weights

/-- `nn_ffnet_output_weights`, each operation modulo `2 ^ 64`. -/
def nn_ffnet_output_weights (input_count hidden_count output_count hidden_layer_count : Nat) :
    Nat :=
  mul (if hidden_layer_count > 0 then add hidden_count 1 else add input_count 1) output_count

/-- `nn_ffnet_total_weights`, each operation modulo `2 ^ 64`. -/
def nn_ffnet_total_weights (input_count hidden_count output_count hidden_layer_count : Nat) :
    Nat :=
  add (nn_ffnet_hidden_weights input_count hidden_count output_count hidden_layer_count)
    (nn_ffnet_output_weights input_count hidden_count output_count hidden_layer_count)

/-- `nn_ffnet_total_neurons`, each operation modulo `2 ^ 64`. -/
def nn_ffnet_total_neurons (input_count hidden_count output_count hidden_layer_count : Nat) :
    Nat :=
  add (add input_count (mul hidden_count hidden_layer_count)) output_count

/-- `nn_ffnet_total_activations`, each operation modulo `2 ^ 64`. -/
def nn_ffnet_total_activations (hidden_count output_count hidden_layer_count : Nat) : Nat :=
  add (mul hidden_count hidden_layer_count) output_count

/-- `nn_ffnet_create` with its byte count in `size_t` arithmetic and its call of
`calloc`.  `header` is `sizeof(struct nn_ffnet)` (`nn.h` is not among the
sources) and `calloc n` tells whether the allocator grants a block of `n`
bytes; `assert(net)` fails when it does not.  The block has `bytes` bytes, of
which `room` lie behind the header: a segment holds the slots that the counts
recorded in the header give it and that lie inside the block.  A block
shorter than the header has no result. -/
def nn_ffnet_create {α : Type} [Zero α] [One α] [Neg α] (header : Nat) (calloc : Nat → Bool)
    (input_count hidden_count output_count hidden_layer_count : Nat) : Option (nn_ffnet α) :=
  if 0 < input_count ∧ 0 < output_count ∧ 0 < hidden_count then
    let total_weights :=
      nn_ffnet_total_weights input_count hidden_count output_count hidden_layer_count
    let total_neurons :=
      nn_ffnet_total_neurons input_count hidden_count output_count hidden_layer_count
    let total_activs :=
      nn_ffnet_total_activations hidden_count output_count hidden_layer_count
    let items_bytes := add (mul 4 (add total_weights total_neurons)) (mul 1 total_activs)
    if 0 < items_bytes then
      let bytes := add items_bytes header
      if calloc bytes = true ∧ header ≤ bytes then
        let room := bytes - header
        some
          { ninputs := input_count
            nhiddens := hidden_count
            noutputs := output_count
            nhidden_layers := hidden_layer_count
            nweights := total_weights
            nneurons := total_neurons
            nactivations := total_activs
            bias := -1
            weight := List.replicate (min total_weights (room / 4)) 0
            output := List.replicate (min total_neurons (room / 4 - total_weights)) 0
            activation :=
              List.replicate (min total_activs (room - 4 * (total_weights + total_neurons))) 0 }
      else none
    else none
  else none

end size_t

/-! ## Offsets of the hidden layers -/

/-- `nn_ffnet_weight_at_hidden_layer`, as an offset into the weight segment. -/
def nn_ffnet_weight_at_hidden_layer {α : Type} (net : nn_ffnet α) (layer : Nat) : Option Nat :=
  if layer < net.nhidden_layers then
    let input_offset := (net.ninputs + 1) * net.nhiddens
    some (input_offset + (net.nhiddens + 1) * layer)
  else none

/-! ## Growth -/

/-- The closing `do { *new_weight = weight; } while((new_weight += stride) <
new_weight_finish)` of `nn_ffnet_add_hidden_layer`; the first argument bounds
the number of iterations.  Pointers are offsets from `new->weight`; the
finishing pointer may lie before the segment. -/
def fill_loop {α : Type} (weight : α) (stride : Nat) (finish : Int) :
    Nat → List α → Nat → Option (List α)
  | 0, _, _ => none
  | fuel + 1, w, new_weight =>
    if new_weight < w.length then
      if ((new_weight + stride : Nat) : Int) < finish then
        fill_loop weight stride finish fuel (w.set new_weight weight) (new_weight + stride)
      else some (w.set new_weight weight)
    else none

/-- `nn_ffnet_add_hidden_layer`.  The count `nnew_weights` is the `size_t`
difference `new->nweights - net->nweights`, which wraps when the new network
has the fewer weights; added to a `float` pointer in a flat 64-bit address
space the wrapped value moves the pointer back by the difference, so the
displacement is the signed difference. -/
def nn_ffnet_add_hidden_layer {α : Type} [Zero α] [One α] [Neg α] [DecidableEq α]
    (net : nn_ffnet α) (weight : α) : Option (nn_ffnet α) :=
  if 0 < net.nhiddens then
    match (nn_ffnet_create net.ninputs net.nhiddens net.noutputs (net.nhidden_layers + 1) :
        Option (nn_ffnet α)) with
    | none => none
    | some new =>
      -- ACTIVATIONS
      match memcpy new.activation 0 net.activation 0 (net.nhiddens * net.nhidden_layers) with
      | none => none
      | some act1 =>
      match ptr_back new.nactivations new.noutputs, ptr_back net.nactivations net.noutputs with
      | some d, some s =>
        match memcpy act1 d net.activation s net.noutputs with
        | none => none
        | some act2 =>
        -- WEIGHTS
        let noutput_weights :=
          nn_ffnet_output_weights new.ninputs new.nhiddens new.noutputs new.nhidden_layers
        match memcpy_block new.weight new.output act2 net.weight
            (size_sub net.nweights noutput_weights) with
        | none => none
        | some (w1, out1, act3) =>
        match ptr_back new.nweights noutput_weights, ptr_back net.nweights noutput_weights with
        | some dw, some sw =>
          match memcpy w1 dw net.weight sw noutput_weights with
          | none => none
          | some w2 =>
          let nnew_weights : Int := (new.nweights : Int) - (net.nweights : Int)
          let nweights_per_layer := new.nhiddens + 1
          let new_layer := new.nhidden_layers - 1
          match (if new_layer = 0 then some 0
                 else nn_ffnet_weight_at_hidden_layer new (new_layer - 1)) with
          | none => none
          | some base =>
            let new_weight := base + 1
            let new_weight_finish : Int := (new_weight : Int) + nnew_weights
            match fill_loop weight (nweights_per_layer + 1) new_weight_finish w2.length w2
                new_weight with
            | none => none
            | some w3 => some { new with weight := w3, output := out1, activation := act3 }
        | _, _ => none
      | _, _ => none
  else none

/-! ## Evaluation -/

/-- The cursors of `nn_ffnet_run` (`weight`, `output`, `activation`, as offsets
into their segments) and the contents of the output segment. -/
structure run_cursor (α : Type) where
  weight : Nat
  output : Nat
  activation : Nat
  out : List α
  deriving DecidableEq

/-- The innermost loop `for(k = 0; k < nweights; k++) sum += *weight++ * input[k]`:
the first argument counts the iterations left. -/
def run_dot {α : Type} [LinearOrderedField α] (w out : List α) (input : Nat) :
    Nat → Nat → Nat → α → Option (Nat × α)
  | 0, _, weight, sum => some (weight, sum)
  | n + 1, k, weight, sum =>
    match w[weight]?, out[input + k]? with
    | some wv, some iv => run_dot w out input n (k + 1) (weight + 1) (sum + wv * iv)
    | _, _ => none

/-- One neuron: bias term, weighted sum, activation, store. -/
def run_neuron {α : Type} [LinearOrderedField α] (expf : α → α) (net : nn_ffnet α)
    (input nweights : Nat) (c : run_cursor α) : Option (run_cursor α) :=
  match net.weight[c.weight]? with
  | none => none
  | some wb =>
    match run_dot net.weight c.out input nweights 0 (c.weight + 1) (wb * net.bias) with
    | none => none
    | some (weight, sum) =>
      match net.activation[c.activation]? with
      | none => none
      | some tag =>
        match nn_activate expf tag sum with
        | none => none
        | some v =>
          if c.output < c.out.length then
            some
              { weight := weight
                output := c.output + 1
                activation := c.activation + 1
                out := c.out.set c.output v }
          else none

/-- The neuron loop of one layer: the first `Nat` argument counts the neurons
left. -/
def run_layer {α : Type} [LinearOrderedField α] (expf : α → α) (net : nn_ffnet α)
    (input nweights : Nat) : Nat → run_cursor α → Option (run_cursor α)
  | 0, c => some c
  | n + 1, c =>
    match run_neuron expf net input nweights c with
    | none => none
    | some c1 => run_layer expf net input nweights n c1

/-- The loop over the hidden layers: layers left, index `i` of the layer, offset
`input` of the previous layer. -/
def run_hidden {α : Type} [LinearOrderedField α] (expf : α → α) (net : nn_ffnet α) :
    Nat → Nat → Nat → run_cursor α → Option (Nat × run_cursor α)
  | 0, _, input, c => some (input, c)
  | n + 1, i, input, c =>
    let nweights := if i = 0 then net.ninputs else net.nhiddens
    match run_layer expf net input nweights net.nhiddens c with
    | none => none
    | some c1 => run_hidden expf net n (i + 1) (input + nweights) c1

/-- The body of `nn_ffnet_run` up to its two closing assertions: the pointer
`ret` (an offset into the output segment) and the cursors after the output
layer. -/
def run_scan {α : Type} [LinearOrderedField α] (expf : α → α) (net : nn_ffnet α)
    (inputs : List α) : Option (Nat × run_cursor α) :=
  match memcpy net.output 0 inputs 0 net.ninputs with
  | none => none
  | some out0 =>
    match run_hidden expf net net.nhidden_layers 0 0
        { weight := 0, output := net.ninputs, activation := 0, out := out0 } with
    | none => none
    | some (input, c) =>
      let ret := c.output
      let nweights := if net.nhidden_layers = 0 then net.ninputs else net.nhiddens
      match run_layer expf net input nweights net.noutputs c with
      | none => none
      | some c1 => some (ret, c1)

/-- `nn_ffnet_run`: the network with its output segment rewritten, and the
returned pointer `ret` as an offset into that segment. -/
def nn_ffnet_run {α : Type} [LinearOrderedField α] (expf : α → α) (net : nn_ffnet α)
    (inputs : List α) : Option (nn_ffnet α × Nat) :=
  match run_scan expf net inputs with
  | none => none
  | some (ret, c1) =>
    if c1.weight = net.nweights ∧ c1.output = net.nneurons then
      some ({ net with output := c1.out }, ret)
    else none

/-- The `noutputs` values a caller reads through the pointer returned by
`nn_ffnet_run`. -/
def run_view {α : Type} (r : nn_ffnet α × Nat) : List α :=
  (r.1.output.drop r.2).take r.1.noutputs

/-! ## Addressing -/

/-- `nn_ffnet_get_weight_to_neuron`. -/
def nn_ffnet_get_weight_to_neuron {α : Type} (net : nn_ffnet α) (neuron_id : Nat) :
    Option Nat :=
  if neuron_id < net.nneurons ∧ neuron_id ≥ net.ninputs then
    let neuron_id := neuron_id - net.ninputs
    if neuron_id < net.nhiddens then some (neuron_id * (net.ninputs + 1) + 1)
    else
      let neuron_id := neuron_id - net.nhiddens
      let first_layer_offset := (net.ninputs + 1) * net.nhiddens
      some (first_layer_offset + neuron_id * (net.nhiddens + 1) + 1)
  else none

/-- A created network after direct edits of its weights (`net->weight[i] = …`),
of its activation tags and of its bias scalar (`nn_ffnet_set_bias`). -/
def configured {α : Type} (net : nn_ffnet α) (weights : List α) (tags : List Nat) (bias : α) :
    nn_ffnet α :=
  { net with weight := weights, activation := tags, bias := bias }

/-! ## The layout as the specification words it -/

/-- Fan-in of the neurons of layer `l` (hidden layers are numbered from 0, the
output layer is layer `L`): `I` when the previous layer is the input layer,
`H` otherwise. -/
def spec_fan_in (I H l : Nat) : Nat := if l = 0 then I else H

/-- Index, in the output segment, of the first neuron of the layer before
layer `l`. -/
def spec_prev_start (I H l : Nat) : Nat := if l = 0 then 0 else I + (l - 1) * H

/-- Start of the weight run of neuron `j` of layer `l`, in storage order. -/
def spec_weight_start (I H O L l j : Nat) : Nat :=
  if l = 0 then j * (I + 1)
  else if l < L then (I + 1) * H + ((l - 1) * H + j) * (H + 1)
  else nn_ffnet_hidden_weights I H O L + j * (H + 1)

/-- The weighted sum of a neuron whose weight run starts at `s`, over the `F`
values of `v` from index `p` on: `w[s]*b + Σ_{k<F} w[s+1+k]*v[p+k]`. -/
def neuron_sum {α : Type} [LinearOrderedField α] (w v : List α) (b : α) (s p F : Nat) : α :=
  w.getD s 0 * b + ∑ k ∈ Finset.range F, w.getD (s + 1 + k) 0 * v.getD (p + k) 0

/-- The value `nn_activate` returns, 0 standing for the failed assertion. -/
def activate_value {α : Type} [LinearOrderedField α] (expf : α → α) (activation : Nat)
    (input : α) : α :=
  (nn_activate expf activation input).getD 0

/-- The header counts and the segment lengths of a network agree with the
layout calculator. -/
def well_formed {α : Type} (net : nn_ffnet α) : Prop :=
  net.nweights =
      nn_ffnet_total_weights net.ninputs net.nhiddens net.noutputs net.nhidden_layers ∧
    net.nneurons =
      nn_ffnet_total_neurons net.ninputs net.nhiddens net.noutputs net.nhidden_layers ∧
    net.nactivations =
      nn_ffnet_total_activations net.nhiddens net.noutputs net.nhidden_layers ∧
    net.weight.length = net.nweights ∧
    net.output.length = net.nneurons ∧
    net.activation.length = net.nactivations

/-- A tag is one of the four enumerators of `nn_activation`. -/
def valid_tag (t : Nat) : Prop :=
  t = NN_ACTIVATION_PASSTHROUGH ∨ t = NN_ACTIVATION_SIGMOID ∨
    t = NN_ACTIVATION_FAST_SIGMOID ∨ t = NN_ACTIVATION_RELU

instance : DecidablePred valid_tag := fun t => by unfold valid_tag; infer_instance

/-- `nn_ffnet_create` followed by `configured`. -/
def build {α : Type} [Zero α] [One α] [Neg α] (I H O L : Nat) (weights : List α)
    (tags : List Nat) (bias : α) : Option (nn_ffnet α) :=
  (nn_ffnet_create I H O L).map fun n => configured n weights tags bias

/-- Stand-in for `exp` in concrete runs over `ℚ`; the runs below use passthrough
tags only and never call it. -/
def no_exp : ℚ → ℚ := fun _ => 0

/-- The values read through the pointer returned by `nn_ffnet_run`. -/
def run_outputs {α : Type} [LinearOrderedField α] (expf : α → α) (net : Option (nn_ffnet α))
    (inputs : List α) : Option (List α) :=
  (net.bind fun n => nn_ffnet_run expf n inputs).map run_view

/-- `nn_ffnet_add_hidden_layer` on the result of an earlier step. -/
def grow {α : Type} [Zero α] [One α] [Neg α] [DecidableEq α] (net : Option (nn_ffnet α))
    (weight : α) :
    Option (nn_ffnet α) :=
  net.bind fun n => nn_ffnet_add_hidden_layer n weight

/-! ## Duplication, bias and connectivity -/

/-- `nn_ffnet_copy`: the `assert` on the byte count, then one `memcpy` of the
header and of the `nweights` floats, `nneurons` floats and `nactivations`
chars behind it into a fresh block (whose prior contents, here zeros, are all
overwritten). -/
def nn_ffnet_copy {α : Type} [LinearOrderedField α] (net : nn_ffnet α) :
    Option (nn_ffnet α) :=
  let extra := 4 * (net.nweights + net.nneurons) + net.nactivations
  if 0 < extra then
    match memcpy (List.replicate net.nweights 0) 0 net.weight 0 net.nweights,
        memcpy (List.replicate net.nneurons 0) 0 net.output 0 net.nneurons,
        memcpy (List.replicate net.nactivations 0) 0 net.activation 0 net.nactivations with
    | some w, some o, some a => some { net with weight := w, output := o, activation := a }
    | _, _, _ => none
  else none

/-- `nn_ffnet_set_bias`. -/
def nn_ffnet_set_bias {α : Type} (net : nn_ffnet α) (bias : α) : nn_ffnet α :=
  { net with bias := bias }

/-- The loop `for(i = 0; i < nweights; i++) is_connected += *weight++ != 0.0f` of
`nn_ffnet_neuron_is_connected`: iterations left, weight cursor, counter. -/
def connected_loop {α : Type} [LinearOrderedField α] (w : List α) :
    Nat → Nat → Nat → Option Nat
  | 0, _, is_connected => some is_connected
  | n + 1, weight, is_connected =>
    match w[weight]? with
    | none => none
    | some wv => connected_loop w n (weight + 1) (is_connected + if wv ≠ 0 then 1 else 0)

/-- `nn_ffnet_neuron_is_connected`. -/
def nn_ffnet_neuron_is_connected {α : Type} [LinearOrderedField α] (net : nn_ffnet α)
    (neuron_id : Nat) : Option Bool :=
  if neuron_id < net.nneurons then
    if neuron_id < net.ninputs then some true
    else
      match nn_ffnet_get_weight_to_neuron net neuron_id with
      | none => none
      | some start_index =>
        let nweights :=
          if neuron_id < net.ninputs + net.nhiddens then net.ninputs else net.nhiddens
        match connected_loop net.weight nweights start_index 0 with
        | none => none
        | some is_connected => some (is_connected != 0)
  else none

/-- The operations on `float` values that `nn_ffnet_run` and the activation
functions perform: `+`, `*`, `/`, unary minus, `fabs`, `exp`, the comparison
`<`, and the constants 0, 1 and 45. -/
structure float_ops (F : Type) where
  add : F → F → F
  mul : F → F → F
  div : F → F → F
  neg : F → F
  fabs : F → F
  exp : F → F
  lt : F → F → Bool
  zero : F
  one : F
  forty_five : F

namespace flt

/-- `nn_sigmoid`. -/
def nn_sigmoid {F : Type} (A : float_ops F) (input : F) : F :=
  if A.lt input (A.neg A.forty_five) = true then A.zero
  else if A.lt A.forty_five input = true then A.one
  else A.div A.one (A.add A.one (A.exp (A.neg input)))

/-- `nn_fast_sigmoid`. -/
def nn_fast_sigmoid {F : Type} (A : float_ops F) (input : F) : F :=
  A.div input (A.add A.one (A.fabs input))

/-- `nn_relu`. -/
def nn_relu {F : Type} (A : float_ops F) (input : F) : F :=
  if A.lt input A.zero = true then A.zero else input

/-- `nn_activate`: the `default:` branch is `assert(false)`. -/
def nn_activate {F : Type} (A : float_ops F) (activation : Nat) (input : F) : Option F :=
  if activation = NN_ACTIVATION_PASSTHROUGH then some input
  else if activation = NN_ACTIVATION_SIGMOID then some (nn_sigmoid A input)
  else if activation = NN_ACTIVATION_FAST_SIGMOID then some (nn_fast_sigmoid A input)
  else if activation = NN_ACTIVATION_RELU then some (nn_relu A input)
  else none

/-- The innermost loop `for(k = 0; k < nweights; k++) sum += *weight++ * input[k]`:
the first argument counts the iterations left. -/
def run_dot {F : Type} (A : float_ops F) (w out : List F) (input : Nat) :
    Nat → Nat → Nat → F → Option (Nat × F)
  | 0, _, weight, sum => some (weight, sum)
  | n + 1, k, weight, sum =>
    match w[weight]?, out[input + k]? with
    | some wv, some iv => run_dot A w out input n (k + 1) (weight + 1) (A.add sum (A.mul wv iv))
    | _, _ => none

/-- One neuron: bias term, weighted sum, activation, store. -/
def run_neuron {F : Type} (A : float_ops F) (net : nn_ffnet F) (input nweights : Nat)
    (c : run_cursor F) : Option (run_cursor F) :=
  match net.weight[c.weight]? with
  | none => none
  | some wb =>
    match run_dot A net.weight c.out input nweights 0 (c.weight + 1) (A.mul wb net.bias) with
    | none => none
    | some (weight, sum) =>
      match net.activation[c.activation]? with
      | none => none
      | some tag =>
        match nn_activate A tag sum with
        | none => none
        | some v =>
          if c.output < c.out.length then
            some
              { weight := weight
                output := c.output + 1
                activation := c.activation + 1
                out := c.out.set c.output v }
          else none

/-- The neuron loop of one layer: the first `Nat` argument counts the neurons
left. -/
def run_layer {F : Type} (A : float_ops F) (net : nn_ffnet F) (input nweights : Nat) :
    Nat → run_cursor F → Option (run_cursor F)
  | 0, c => some c
  | n + 1, c =>
    match run_neuron A net input nweights c with
    | none => none
    | some c1 => run_layer A net input nweights n c1

/-- The loop over the hidden layers: layers left, index `i` of the layer, offset
`input` of the previous layer. -/
def run_hidden {F : Type} (A : float_ops F) (net : nn_ffnet F) :
    Nat → Nat → Nat → run_cursor F → Option (Nat × run_cursor F)
  | 0, _, input, c => some (input, c)
  | n + 1, i, input, c =>
    let nweights := if i = 0 then net.ninputs else net.nhiddens
    match run_layer A net input nweights net.nhiddens c with
    | none => none
    | some c1 => run_hidden A net n (i + 1) (input + nweights) c1

/-- The body of `nn_ffnet_run` up to its two closing assertions. -/
def run_scan {F : Type} (A : float_ops F) (net : nn_ffnet F) (inputs : List F) :
    Option (Nat × run_cursor F) :=
  match memcpy net.output 0 inputs 0 net.ninputs with
  | none => none
  | some out0 =>
    match run_hidden A net net.nhidden_layers 0 0
        { weight := 0, output := net.ninputs, activation := 0, out := out0 } with
    | none => none
    | some (input, c) =>
      let ret := c.output
      let nweights := if net.nhidden_layers = 0 then net.ninputs else net.nhiddens
      match run_layer A net input nweights net.noutputs c with
      | none => none
      | some c1 => some (ret, c1)

/-- `nn_ffnet_run`: the network with its output segment rewritten, and the
returned pointer `ret` as an offset into that segment. -/
def nn_ffnet_run {F : Type} (A : float_ops F) (net : nn_ffnet F) (inputs : List F) :
    Option (nn_ffnet F × Nat) :=
  match run_scan A net inputs with
  | none => none
  | some (ret, c1) =>
    if c1.weight = net.nweights ∧ c1.output = net.nneurons then
      some ({ net with output := c1.out }, ret)
    else none

/-- The values read through the pointer returned by `nn_ffnet_run`. -/
def run_outputs {F : Type} (A : float_ops F) (net : Option (nn_ffnet F)) (inputs : List F) :
    Option (List F) :=
  (net.bind fun n => nn_ffnet_run A n inputs).map run_view

/-- The sum that the innermost loop accumulates from `acc`: `n` products of
the weights from index `i` on with the values from index `j` on, added from
left to right. -/
def dot {F : Type} [Zero F] (A : float_ops F) (w v : List F) : Nat → Nat → Nat → F → F
  | 0, _, _, acc => acc
  | n + 1, i, j, acc => dot A w v n (i + 1) (j + 1) (A.add acc (A.mul (w.getD i 0) (v.getD j 0)))

/-- The weighted sum of a neuron whose weight run starts at `s`, over the `n`
values of `v` from index `p` on, in the order in which `nn_ffnet_run` adds. -/
def neuron_sum {F : Type} [Zero F] (A : float_ops F) (w v : List F) (b : F) (s p n : Nat) : F :=
  dot A w v n (s + 1) p (A.mul (w.getD s 0) b)

/-- The value `nn_activate` returns, 0 standing for the failed assertion. -/
def activate_value {F : Type} [Zero F] (A : float_ops F) (activation : Nat) (input : F) : F :=
  (nn_activate A activation input).getD 0

end flt

/-- Exact arithmetic in a linearly ordered field as a `float_ops`. -/
def exact_ops {α : Type} [LinearOrderedField α] (expf : α → α) : float_ops α where
  add := fun a b => a + b
  mul := fun a b => a * b
  div := fun a b => a / b
  neg := fun a => -a
  fabs := fun a => |a|
  exp := expf
  lt := fun a b => decide (a < b)
  zero := 0
  one := 1
  forty_five := 45

/-- A value of `float` arithmetic with its special values: a finite number, an
infinity of either sign, or a NaN.  Signed zeros are not told apart, and a
finite result is the exact one: rounding and overflow are not part of this
carrier. -/
inductive xfloat (α : Type) where
  | fin (a : α)
  | pinf
  | ninf
  | nan
  deriving DecidableEq

namespace xfloat

/-- `a + b`: an infinity absorbs finite numbers, opposite infinities give NaN. -/
def add {α : Type} [LinearOrderedField α] : xfloat α → xfloat α → xfloat α
  | fin a, fin b => fin (a + b)
  | fin _, pinf => pinf
  | fin _, ninf => ninf
  | pinf, fin _ => pinf
  | ninf, fin _ => ninf
  | pinf, pinf => pinf
  | ninf, ninf => ninf
  | pinf, ninf => nan
  | ninf, pinf => nan
  | nan, _ => nan
  | _, nan => nan

/-- The infinity with the sign of `a` times the sign `s` (`true` for `+`), and
NaN for `a = 0`. -/
def scale {α : Type} [LinearOrderedField α] (a : α) (s : Bool) : xfloat α :=
  if a = 0 then nan else if (decide (0 < a)) = s then pinf else ninf

/-- `a * b`: zero times an infinity is NaN. -/
def mul {α : Type} [LinearOrderedField α] : xfloat α → xfloat α → xfloat α
  | fin a, fin b => fin (a * b)
  | fin a, pinf => scale a true
  | fin a, ninf => scale a false
  | pinf, fin b => scale b true
  | ninf, fin b => scale b false
  | pinf, pinf => pinf
  | ninf, ninf => pinf
  | pinf, ninf => ninf
  | ninf, pinf => ninf
  | nan, _ => nan
  | _, nan => nan

/-- `a / b`: a nonzero number over zero is an infinity, `0 / 0` and
`inf / inf` are NaN, a finite number over an infinity is 0. -/
def div {α : Type} [LinearOrderedField α] : xfloat α → xfloat α → xfloat α
  | fin a, fin b => if b = 0 then scale a true else fin (a / b)
  | fin _, pinf => fin 0
  | fin _, ninf => fin 0
  | pinf, fin b => if 0 ≤ b then pinf else ninf
  | ninf, fin b => if 0 ≤ b then ninf else pinf
  | pinf, pinf => nan
  | ninf, ninf => nan
  | pinf, ninf => nan
  | ninf, pinf => nan
  | nan, _ => nan
  | _, nan => nan

/-- `-a`. -/
def neg {α : Type} [LinearOrderedField α] : xfloat α → xfloat α
  | fin a => fin (-a)
  | pinf => ninf
  | ninf => pinf
  | nan => nan

/-- `fabs(a)`. -/
def fabs {α : Type} [LinearOrderedField α] : xfloat α → xfloat α
  | fin a => fin |a|
  | pinf => pinf
  | ninf => pinf
  | nan => nan

/-- `exp(a)`, the function on finite numbers being the parameter `expf`. -/
def exp {α : Type} [LinearOrderedField α] (expf : α → α) : xfloat α → xfloat α
  | fin a => fin (expf a)
  | pinf => pinf
  | ninf => fin 0
  | nan => nan

/-- `a < b`: false whenever an operand is NaN. -/
def lt {α : Type} [LinearOrderedField α] : xfloat α → xfloat α → Bool
  | fin a, fin b => decide (a < b)
  | fin _, pinf => true
  | ninf, fin _ => true
  | ninf, pinf => true
  | _, _ => false

end xfloat

instance {α : Type} [LinearOrderedField α] : Zero (xfloat α) := ⟨xfloat.fin 0⟩

instance {α : Type} [LinearOrderedField α] : One (xfloat α) := ⟨xfloat.fin 1⟩

instance {α : Type} [LinearOrderedField α] : Neg (xfloat α) := ⟨xfloat.neg⟩

theorem getElem?_eq_some_getD {β : Type} (l : List β) (d : β) {i : Nat} (h : i < l.length) :
    l[i]? = some (l.getD i d) := by
  rw [List.getD_eq_getElem l d h, List.getElem?_eq_getElem h]

theorem getD_set {β : Type} (l : List β) (d v : β) (i j : Nat) :
    (l.set i v).getD j d = if i = j ∧ i < l.length then v else l.getD j d := by
  simp only [List.getD_eq_getElem?_getD, List.getElem?_set]
  by_cases hij : i = j
  · by_cases hl : i < l.length
    · simp [hij, hl, hij ▸ hl]
    · subst hij
      simp [hl, List.getElem?_eq_none (Nat.le_of_not_lt hl)]
  · simp [hij]

theorem nn_activate_valid {α : Type} [LinearOrderedField α] (expf : α → α) (t : Nat) (x : α)
    (h : t < 4) : nn_activate expf t x = some (activate_value expf t x) := by
  unfold activate_value nn_activate NN_ACTIVATION_PASSTHROUGH NN_ACTIVATION_SIGMOID
    NN_ACTIVATION_FAST_SIGMOID NN_ACTIVATION_RELU
  interval_cases t <;> simp

/-! ## The loops of `nn_ffnet_run` -/

theorem run_dot_spec {α : Type} [LinearOrderedField α] (w out : List α) (input : Nat) :
    ∀ (n k weight : Nat) (sum : α), weight + n ≤ w.length → input + k + n ≤ out.length →
      run_dot w out input n k weight sum =
        some (weight + n,
          sum + ∑ i ∈ Finset.range n, w.getD (weight + i) 0 * out.getD (input + k + i) 0)
  | 0, k, weight, sum, _, _ => by simp [run_dot]
  | n + 1, k, weight, sum, hw, ho => by
    have h1 := getElem?_eq_some_getD w 0 (show weight < w.length by omega)
    have h2 := getElem?_eq_some_getD out 0 (show input + k < out.length by omega)
    rw [run_dot, h1, h2]
    simp only []
    rw [run_dot_spec w out input n (k + 1) (weight + 1) _ (by omega) (by omega),
      Finset.sum_range_succ']
    have e1 : ∀ i, weight + 1 + i = weight + (i + 1) := fun i => by omega
    have e2 : ∀ i, input + (k + 1) + i = input + k + (i + 1) := fun i => by omega
    simp only [e1, e2, Nat.add_zero, Option.some.injEq, Prod.mk.injEq]
    exact ⟨trivial, by ring⟩

theorem run_neuron_spec {α : Type} [LinearOrderedField α] (expf : α → α) (net : nn_ffnet α)
    (input nweights : Nat) (c : run_cursor α)
    (hw : c.weight + (nweights + 1) ≤ net.weight.length)
    (hi : input + nweights ≤ c.out.length)
    (ha : c.activation < net.activation.length)
    (hv : ∀ t ∈ net.activation, t < 4)
    (ho : c.output < c.out.length) :
    run_neuron expf net input nweights c =
      some
        { weight := c.weight + (nweights + 1)
          output := c.output + 1
          activation := c.activation + 1
          out := c.out.set c.output
            (activate_value expf (net.activation.getD c.activation 0)
              (neuron_sum net.weight c.out net.bias c.weight input nweights)) } := by
  have h1 := getElem?_eq_some_getD net.weight 0 (show c.weight < net.weight.length by omega)
  have h2 := getElem?_eq_some_getD net.activation 0 ha
  have h3 : net.activation.getD c.activation 0 < 4 := by
    apply hv
    rw [List.getD_eq_getElem _ _ ha]
    exact List.getElem_mem _
  unfold run_neuron
  rw [h1]
  simp only []
  rw [run_dot_spec net.weight c.out input nweights 0 (c.weight + 1) _ (by omega) (by omega)]
  simp only []
  rw [h2]
  simp only []
  rw [nn_activate_valid expf _ _ h3]
  simp only [ho, if_true, Nat.add_zero, neuron_sum]
  congr 2
  omega

theorem neuron_sum_congr {α : Type} [LinearOrderedField α] (w v v1 : List α) (b : α)
    (s p F : Nat) (h : ∀ k, k < F → v1.getD (p + k) 0 = v.getD (p + k) 0) :
    neuron_sum w v1 b s p F = neuron_sum w v b s p F := by
  unfold neuron_sum
  congr 1
  apply Finset.sum_congr rfl
  intro k hk
  rw [h k (Finset.mem_range.mp hk)]

theorem run_layer_spec {α : Type} [LinearOrderedField α] (expf : α → α) (net : nn_ffnet α)
    (input nweights : Nat) (hv : ∀ t ∈ net.activation, t < 4) :
    ∀ (n : Nat) (c : run_cursor α),
      c.weight + n * (nweights + 1) ≤ net.weight.length →
      input + nweights ≤ c.output →
      c.output + n ≤ c.out.length →
      c.activation + n ≤ net.activation.length →
      ∃ c1, run_layer expf net input nweights n c = some c1 ∧
        c1.weight = c.weight + n * (nweights + 1) ∧
        c1.output = c.output + n ∧
        c1.activation = c.activation + n ∧
        c1.out.length = c.out.length ∧
        (∀ i, i < c.output → c1.out.getD i 0 = c.out.getD i 0) ∧
        (∀ j, j < n → c1.out.getD (c.output + j) 0 =
          activate_value expf (net.activation.getD (c.activation + j) 0)
            (neuron_sum net.weight c.out net.bias (c.weight + j * (nweights + 1)) input
              nweights)) := by
  intro n
  induction n with
  | zero =>
    intro c _ _ _ _
    exact ⟨c, by simp [run_layer]⟩
  | succ n ih =>
    intro c hw hi ho ha
    have hw1 : c.weight + (nweights + 1) + n * (nweights + 1) ≤ net.weight.length := by
      have : (n + 1) * (nweights + 1) = (nweights + 1) + n * (nweights + 1) := by ring
      omega
    have hstep := run_neuron_spec expf net input nweights c
      (by have := Nat.zero_le (n * (nweights + 1)); omega) (by omega) (by omega) hv (by omega)
    obtain ⟨c1, hrun, h1, h2, h3, h4, h5, h6⟩ := ih
      { weight := c.weight + (nweights + 1)
        output := c.output + 1
        activation := c.activation + 1
        out := c.out.set c.output
          (activate_value expf (net.activation.getD c.activation 0)
            (neuron_sum net.weight c.out net.bias c.weight input nweights)) }
      hw1 (show input + nweights ≤ c.output + 1 by omega)
      (show c.output + 1 + n ≤ (c.out.set c.output _).length by
        rw [List.length_set]; omega)
      (show c.activation + 1 + n ≤ _ by omega)
    dsimp only at h1 h2 h3 h4 h5 h6
    refine ⟨c1, ?_, ?_, ?_, ?_, ?_, ?_, ?_⟩
    · rw [run_layer, hstep]
      exact hrun
    · rw [h1]; ring
    · rw [h2]; omega
    · rw [h3]; omega
    · rw [h4, List.length_set]
    · intro i hlt
      rw [h5 i (by omega), getD_set, if_neg (by omega)]
    · intro j hj
      cases j with
      | zero =>
        rw [Nat.add_zero, h5 c.output (by omega), getD_set,
          if_pos ⟨rfl, show c.output < c.out.length by omega⟩]
        simp only [Nat.zero_mul, Nat.add_zero]
      | succ j =>
        have e := h6 j (by omega)
        have a1 : c.output + (j + 1) = c.output + 1 + j := by omega
        have a2 : c.activation + (j + 1) = c.activation + 1 + j := by omega
        have a3 : c.weight + (j + 1) * (nweights + 1) =
            c.weight + (nweights + 1) + j * (nweights + 1) := by ring
        rw [a1, a2, a3, e]
        congr 1
        apply neuron_sum_congr
        intro k hk
        rw [getD_set, if_neg (by omega)]

theorem hidden_weights_succ (I H O i : Nat) :
    nn_ffnet_hidden_weights I H O (i + 1) =
      nn_ffnet_hidden_weights I H O i + H * (spec_fan_in I H i + 1) := by
  cases i with
  | zero => simp [nn_ffnet_hidden_weights, spec_fan_in]; ring
  | succ k =>
    simp only [nn_ffnet_hidden_weights, spec_fan_in, Nat.add_sub_cancel]
    simp only [Nat.succ_ne_zero, if_false, Nat.add_eq_zero, one_ne_zero, and_false]
    ring

theorem hidden_weights_mono (I H O : Nat) {a b : Nat} (h : a ≤ b) :
    nn_ffnet_hidden_weights I H O a ≤ nn_ffnet_hidden_weights I H O b := by
  induction h with
  | refl => exact Nat.le_refl _
  | step _ ih => exact Nat.le_trans ih (by rw [hidden_weights_succ]; exact Nat.le_add_right _ _)

theorem prev_start_add_fan_in (I H i : Nat) :
    spec_prev_start I H i + spec_fan_in I H i = I + i * H := by
  cases i with
  | zero => simp [spec_prev_start, spec_fan_in]
  | succ k => simp [spec_prev_start, spec_fan_in]; ring

theorem prev_start_succ (I H i : Nat) : spec_prev_start I H (i + 1) = I + i * H := by
  simp [spec_prev_start]

theorem run_hidden_spec {α : Type} [LinearOrderedField α] (expf : α → α) (net : nn_ffnet α)
    (hv : ∀ t ∈ net.activation, t < 4) :
    ∀ (n i input : Nat) (c : run_cursor α),
      c.weight = nn_ffnet_hidden_weights net.ninputs net.nhiddens 0 i →
      c.output = net.ninputs + i * net.nhiddens →
      c.activation = i * net.nhiddens →
      input = spec_prev_start net.ninputs net.nhiddens i →
      nn_ffnet_hidden_weights net.ninputs net.nhiddens 0 (i + n) ≤ net.weight.length →
      net.ninputs + (i + n) * net.nhiddens ≤ c.out.length →
      (i + n) * net.nhiddens ≤ net.activation.length →
      ∃ input1 c1, run_hidden expf net n i input c = some (input1, c1) ∧
        c1.weight = nn_ffnet_hidden_weights net.ninputs net.nhiddens 0 (i + n) ∧
        c1.output = net.ninputs + (i + n) * net.nhiddens ∧
        c1.activation = (i + n) * net.nhiddens ∧
        input1 = spec_prev_start net.ninputs net.nhiddens (i + n) ∧
        c1.out.length = c.out.length ∧
        (∀ idx, idx < c.output → c1.out.getD idx 0 = c.out.getD idx 0) ∧
        (∀ l j, i ≤ l → l < i + n → j < net.nhiddens →
          c1.out.getD (net.ninputs + l * net.nhiddens + j) 0 =
            activate_value expf (net.activation.getD (l * net.nhiddens + j) 0)
              (neuron_sum net.weight c1.out net.bias
                (nn_ffnet_hidden_weights net.ninputs net.nhiddens 0 l +
                  j * (spec_fan_in net.ninputs net.nhiddens l + 1))
                (spec_prev_start net.ninputs net.nhiddens l)
                (spec_fan_in net.ninputs net.nhiddens l))) := by
  intro n
  induction n with
  | zero =>
    intro i input c hw ho ha hi _ _ _
    refine ⟨input, c, by simp [run_hidden], hw, ho, ha, hi, rfl, fun _ _ => rfl, ?_⟩
    intro l j h1 h2
    omega
  | succ n ih =>
    intro i input c hw ho ha hi hwl hol hal
    have hF : (if i = 0 then net.ninputs else net.nhiddens) =
        spec_fan_in net.ninputs net.nhiddens i := rfl
    have e1 : i + (n + 1) = i + 1 + n := by omega
    have hsucc : nn_ffnet_hidden_weights net.ninputs net.nhiddens 0 (i + 1) =
        nn_ffnet_hidden_weights net.ninputs net.nhiddens 0 i +
          net.nhiddens * (spec_fan_in net.ninputs net.nhiddens i + 1) :=
      hidden_weights_succ net.ninputs net.nhiddens 0 i
    have hmono := hidden_weights_mono net.ninputs net.nhiddens 0
      (show i + 1 ≤ i + 1 + n by omega)
    have hpf := prev_start_add_fan_in net.ninputs net.nhiddens i
    have hmul : (i + 1 + n) * net.nhiddens =
        i * net.nhiddens + net.nhiddens + n * net.nhiddens := by ring
    have hmul1 : (i + 1) * net.nhiddens = i * net.nhiddens + net.nhiddens := by ring
    rw [e1] at hwl hol hal
    obtain ⟨c1, hrun, h1, h2, h3, h4, h5, h6⟩ := run_layer_spec expf net input
      (spec_fan_in net.ninputs net.nhiddens i) hv net.nhiddens c
      (by rw [hw]; omega) (by rw [hi, ho]; omega) (by omega) (by omega)
    obtain ⟨input2, c2, hrun2, g1, g2, g3, g4, g5, g6, g7⟩ := ih (i + 1)
      (input + spec_fan_in net.ninputs net.nhiddens i) c1
      (by rw [h1, hw, hsucc])
      (by rw [h2, ho]; omega) (by rw [h3, ha]; omega)
      (by rw [hi, hpf, prev_start_succ]) hwl (by rw [h4]; exact hol) hal
    refine ⟨input2, c2, ?_, ?_, ?_, ?_, ?_, ?_, ?_, ?_⟩
    · rw [run_hidden]
      simp only [hF, hrun]
      exact hrun2
    · rw [e1]; exact g1
    · rw [e1]; exact g2
    · rw [e1]; exact g3
    · rw [e1]; exact g4
    · rw [g5, h4]
    · intro idx hidx
      rw [g6 idx (by omega), h5 idx hidx]
    · intro l j hl1 hl2 hj
      by_cases hli : l = i
      · subst hli
        have hidx : net.ninputs + l * net.nhiddens + j < c1.output := by omega
        rw [g6 _ hidx, ← ho, h6 j hj, ha, hw, hi]
        congr 1
        symm
        apply neuron_sum_congr
        intro k hk
        rw [g6 _ (by omega), h5 _ (by omega)]
      · exact g7 l j (by omega) (by omega) hj

theorem memcpy_spec {β : Type} (dst : List β) (d : Nat) (src : List β) (s n : Nat)
    (hd : d + n ≤ dst.length) (hs : s + n ≤ src.length) :
    ∃ r, memcpy dst d src s n = some r ∧ r.length = dst.length ∧
      ∀ i, r[i]? = if d ≤ i ∧ i < d + n then src[s + (i - d)]? else dst[i]? := by
  refine ⟨_, by rw [memcpy, if_pos ⟨hd, hs⟩], ?_, ?_⟩
  · simp only [List.length_append, List.length_take, List.length_drop]
    omega
  · intro i
    by_cases h1 : i < d
    · rw [List.getElem?_append_left (by simp only [List.length_take]; omega),
        List.getElem?_take_of_lt h1, if_neg (by omega)]
    · rw [List.getElem?_append_right (by simp only [List.length_take]; omega)]
      have e1 : (List.take d dst).length = d := by simp only [List.length_take]; omega
      rw [e1]
      by_cases h2 : i < d + n
      · rw [List.getElem?_append_left (by
          simp only [List.length_take, List.length_drop]; omega),
          List.getElem?_take_of_lt (by omega), List.getElem?_drop, if_pos ⟨by omega, h2⟩]
      · have e2 : (List.take n (List.drop s src)).length = n := by
          simp only [List.length_take, List.length_drop]; omega
        rw [List.getElem?_append_right (by rw [e2]; omega), e2, List.getElem?_drop,
          if_neg (by omega)]
        congr 1
        omega

theorem output_weights_eq (I H O L : Nat) :
    nn_ffnet_output_weights I H O L = O * (spec_fan_in I H L + 1) := by
  unfold nn_ffnet_output_weights spec_fan_in
  by_cases h : L = 0
  · simp [h, Nat.mul_comm]
  · simp [h, Nat.pos_of_ne_zero h, Nat.mul_comm]

theorem hidden_weights_irrel (I H O O1 L : Nat) :
    nn_ffnet_hidden_weights I H O L = nn_ffnet_hidden_weights I H O1 L := rfl

/-- The scan of `nn_ffnet_run` on a well-formed network with valid tags: where
the cursors end and what the output segment holds. -/
theorem run_scan_spec {α : Type} [LinearOrderedField α] (expf : α → α) (net : nn_ffnet α)
    (x : List α) (hwf : well_formed net) (hv : ∀ t ∈ net.activation, t < 4)
    (hx : net.ninputs ≤ x.length) :
    ∃ c1, run_scan expf net x =
        some (net.ninputs + net.nhidden_layers * net.nhiddens, c1) ∧
      c1.weight = net.nweights ∧ c1.output = net.nneurons ∧
      c1.activation = net.nactivations ∧
      c1.out.length = net.nneurons ∧
      (∀ k, k < net.ninputs → c1.out.getD k 0 = x.getD k 0) ∧
      (∀ l j, (l < net.nhidden_layers ∧ j < net.nhiddens) ∨
          (l = net.nhidden_layers ∧ j < net.noutputs) →
        c1.out.getD (net.ninputs + l * net.nhiddens + j) 0 =
          activate_value expf (net.activation.getD (l * net.nhiddens + j) 0)
            (neuron_sum net.weight c1.out net.bias
              (nn_ffnet_hidden_weights net.ninputs net.nhiddens 0 l +
                j * (spec_fan_in net.ninputs net.nhiddens l + 1))
              (spec_prev_start net.ninputs net.nhiddens l)
              (spec_fan_in net.ninputs net.nhiddens l))) := by
  obtain ⟨w1, w2, w3, w4, w5, w6⟩ := hwf
  unfold nn_ffnet_total_weights at w1
  unfold nn_ffnet_total_neurons at w2
  unfold nn_ffnet_total_activations at w3
  rw [hidden_weights_irrel _ _ _ 0, output_weights_eq] at w1
  have hLH : net.nhidden_layers * net.nhiddens = net.nhiddens * net.nhidden_layers :=
    Nat.mul_comm _ _
  obtain ⟨out0, hm, hlen0, hget0⟩ := memcpy_spec net.output 0 x 0 net.ninputs
    (by omega) (by omega)
  obtain ⟨input, c, hrun, h1, h2, h3, h4, h5, h6, h7⟩ := run_hidden_spec expf net hv
    net.nhidden_layers 0 0
    { weight := 0, output := net.ninputs, activation := 0, out := out0 }
    (by simp [nn_ffnet_hidden_weights]) (by simp) (by simp) (by simp [spec_prev_start])
    (by rw [Nat.zero_add]; omega)
    (by rw [Nat.zero_add]; show _ ≤ out0.length; omega)
    (by rw [Nat.zero_add]; omega)
  dsimp only at h5 h6
  rw [Nat.zero_add] at h1 h2 h3 h4 h7
  have hpf := prev_start_add_fan_in net.ninputs net.nhiddens net.nhidden_layers
  obtain ⟨c1, hrun1, g1, g2, g3, g4, g5, g6⟩ := run_layer_spec expf net input
    (spec_fan_in net.ninputs net.nhiddens net.nhidden_layers) hv net.noutputs c
    (by rw [h1]; omega) (by rw [h4, h2]; omega) (by rw [h2, h5]; omega)
    (by rw [h3]; omega)
  have hin : ∀ k, k < net.ninputs → c1.out.getD k 0 = x.getD k 0 := by
    intro k hk
    rw [g5 k (by omega), h6 k hk, List.getD_eq_getElem?_getD, hget0 k,
      if_pos ⟨Nat.zero_le _, by omega⟩, List.getD_eq_getElem?_getD]
    simp
  refine ⟨c1, ?_, by rw [g1, h1]; omega, by rw [g2, h2]; omega, by rw [g3, h3]; omega,
    by rw [g4, h5]; omega, hin, ?_⟩
  · unfold run_scan
    rw [hm]
    simp only [hrun]
    have hF : (if net.nhidden_layers = 0 then net.ninputs else net.nhiddens) =
        spec_fan_in net.ninputs net.nhiddens net.nhidden_layers := rfl
    rw [hF, hrun1, h2]
  · intro l j hlj
    rcases hlj with ⟨hl, hj⟩ | ⟨hl, hj⟩
    · have hmul : (l + 1) * net.nhiddens = l * net.nhiddens + net.nhiddens := by ring
      have hle : (l + 1) * net.nhiddens ≤ net.nhidden_layers * net.nhiddens :=
        Nat.mul_le_mul_right _ hl
      have hpl := prev_start_add_fan_in net.ninputs net.nhiddens l
      rw [g5 _ (by omega), h7 l j (Nat.zero_le _) hl hj]
      congr 1
      symm
      apply neuron_sum_congr
      intro k hk
      exact g5 _ (by omega)
    · subst hl
      rw [← h2, g6 j hj, h3, h1, h4]
      congr 1
      symm
      apply neuron_sum_congr
      intro k hk
      exact g5 _ (by omega)

theorem valid_tag_lt {t : Nat} (h : valid_tag t) : t < 4 := by
  unfold valid_tag NN_ACTIVATION_PASSTHROUGH NN_ACTIVATION_SIGMOID NN_ACTIVATION_FAST_SIGMOID
    NN_ACTIVATION_RELU at h
  omega

/-! ## Creation -/

theorem create_some {α : Type} [Zero α] [One α] [Neg α] (I H O L : Nat) (hI : 0 < I)
    (hH : 0 < H) (hO : 0 < O) :
    (nn_ffnet_create I H O L : Option (nn_ffnet α)) =
      some
        { ninputs := I
          nhiddens := H
          noutputs := O
          nhidden_layers := L
          nweights := nn_ffnet_total_weights I H O L
          nneurons := nn_ffnet_total_neurons I H O L
          nactivations := nn_ffnet_total_activations H O L
          bias := -1
          weight := List.replicate (nn_ffnet_total_weights I H O L) 0
          output := List.replicate (nn_ffnet_total_neurons I H O L) 0
          activation := List.replicate (nn_ffnet_total_activations H O L) 0 } := by
  have hpos : 0 < 4 * (nn_ffnet_total_weights I H O L + nn_ffnet_total_neurons I H O L) +
      nn_ffnet_total_activations H O L := by
    unfold nn_ffnet_total_activations
    omega
  simp only [nn_ffnet_create, hI, hH, hO, hpos, and_self, if_true]

theorem size_sub_of_le {a b : Nat} (h : b ≤ a) : size_sub a b = a - b := by
  rw [size_sub, if_pos h]

theorem size_add_of_lt {a b : Nat} (h : a + b < 2 ^ 64) : size_t.add a b = a + b :=
  Nat.mod_eq_of_lt h

theorem size_mul_of_lt {a b : Nat} (h : a * b < 2 ^ 64) : size_t.mul a b = a * b :=
  Nat.mod_eq_of_lt h

/-- Where the byte count of the three segments stays below `2 ^ 64`, the layout
calculator in `size_t` arithmetic gives the counts of the calculator without
wraparound. -/
theorem layout_of_fits (I H O L : Nat) (hH : 0 < H) (hO : 0 < O)
    (hfit : 4 * (nn_ffnet_total_weights I H O L + nn_ffnet_total_neurons I H O L) +
      nn_ffnet_total_activations H O L < 2 ^ 64) :
    size_t.nn_ffnet_total_weights I H O L = nn_ffnet_total_weights I H O L ∧
      size_t.nn_ffnet_total_neurons I H O L = nn_ffnet_total_neurons I H O L ∧
      size_t.nn_ffnet_total_activations H O L = nn_ffnet_total_activations H O L := by
  unfold nn_ffnet_total_weights nn_ffnet_total_neurons nn_ffnet_total_activations
    nn_ffnet_hidden_weights nn_ffnet_output_weights at hfit
  unfold size_t.nn_ffnet_total_weights size_t.nn_ffnet_total_neurons
    size_t.nn_ffnet_total_activations size_t.nn_ffnet_hidden_weights
    size_t.nn_ffnet_output_weights nn_ffnet_total_weights nn_ffnet_total_neurons
    nn_ffnet_total_activations nn_ffnet_hidden_weights nn_ffnet_output_weights
  by_cases hL : L = 0
  · subst hL
    rw [if_pos rfl, if_neg (by omega)] at hfit
    rw [if_pos rfl, if_pos rfl, if_neg (by omega), if_neg (by omega)]
    have h1 : I + 1 ≤ (I + 1) * O := Nat.le_mul_of_pos_right _ hO
    generalize hp : (I + 1) * O = p at hfit h1
    rw [Nat.mul_zero] at hfit ⊢
    have e0 : size_t.mul H 0 = 0 := by unfold size_t.mul; simp
    rw [e0, size_add_of_lt (show I + 1 < 2 ^ 64 by omega),
      size_mul_of_lt (show (I + 1) * O < 2 ^ 64 by omega), hp,
      size_add_of_lt (show 0 + p < 2 ^ 64 by omega),
      size_add_of_lt (show I + 0 < 2 ^ 64 by omega),
      size_add_of_lt (show I + 0 + O < 2 ^ 64 by omega),
      size_add_of_lt (show 0 + O < 2 ^ 64 by omega)]
    exact ⟨rfl, rfl, rfl⟩
  · have hLp : 0 < L := Nat.pos_of_ne_zero hL
    rw [if_neg hL, if_pos hLp] at hfit
    dsimp only at hfit
    rw [if_neg hL, if_neg hL, if_pos hLp, if_pos hLp]
    dsimp only
    have h1 : I + 1 ≤ (I + 1) * H := Nat.le_mul_of_pos_right _ hH
    have h2 : (L - 1) * (H + 1) ≤ (L - 1) * (H + 1) * H := Nat.le_mul_of_pos_right _ hH
    have h3 : H + 1 ≤ (H + 1) * O := Nat.le_mul_of_pos_right _ hO
    generalize ha : (I + 1) * H = a at hfit h1
    generalize hd : (L - 1) * (H + 1) * H = d at hfit h2
    generalize hc : (L - 1) * (H + 1) = c at h2
    generalize he : (H + 1) * O = e at hfit h3
    generalize hf : H * L = f at hfit
    rw [size_sub_of_le (show 1 ≤ L by omega),
      size_add_of_lt (show I + 1 < 2 ^ 64 by omega),
      size_add_of_lt (show H + 1 < 2 ^ 64 by omega),
      size_mul_of_lt (show (I + 1) * H < 2 ^ 64 by rw [ha]; omega), ha,
      size_mul_of_lt (show (L - 1) * (H + 1) < 2 ^ 64 by rw [hc]; omega), hc,
      size_mul_of_lt (show c * H < 2 ^ 64 by rw [← hc, hd]; omega), ← hc, hd,
      size_mul_of_lt (show (H + 1) * O < 2 ^ 64 by rw [he]; omega), he,
      size_mul_of_lt (show H * L < 2 ^ 64 by rw [hf]; omega), hf,
      size_add_of_lt (show a + d < 2 ^ 64 by omega),
      size_add_of_lt (show a + d + e < 2 ^ 64 by omega),
      size_add_of_lt (show I + f < 2 ^ 64 by omega),
      size_add_of_lt (show I + f + O < 2 ^ 64 by omega),
      size_add_of_lt (show f + O < 2 ^ 64 by omega)]
    exact ⟨rfl, rfl, rfl⟩

/-- For positive widths, a block size below `2 ^ 64` and an allocator that
grants the block, `nn_ffnet_create` in `size_t` arithmetic returns the network
of `nn_ffnet_create` without wraparound. -/
theorem create_of_fits {α : Type} [Zero α] [One α] [Neg α] (header : Nat) (calloc : Nat → Bool)
    (I H O L : Nat) (hI : 0 < I) (hH : 0 < H) (hO : 0 < O)
    (hfit : 4 * (nn_ffnet_total_weights I H O L + nn_ffnet_total_neurons I H O L) +
      nn_ffnet_total_activations H O L + header < 2 ^ 64)
    (hgrant : calloc (4 * (nn_ffnet_total_weights I H O L + nn_ffnet_total_neurons I H O L) +
      nn_ffnet_total_activations H O L + header) = true) :
    (size_t.nn_ffnet_create header calloc I H O L : Option (nn_ffnet α)) =
      nn_ffnet_create I H O L := by
  obtain ⟨e1, e2, e3⟩ := layout_of_fits I H O L hH hO (by omega)
  have hpos : 0 < nn_ffnet_total_activations H O L := by
    unfold nn_ffnet_total_activations
    omega
  unfold size_t.nn_ffnet_create nn_ffnet_create
  rw [e1, e2, e3]
  generalize nn_ffnet_total_weights I H O L = tw at hfit hgrant ⊢
  generalize nn_ffnet_total_neurons I H O L = tn at hfit hgrant ⊢
  generalize nn_ffnet_total_activations H O L = ta at hfit hgrant hpos ⊢
  have b1 : size_t.add tw tn = tw + tn := size_add_of_lt (by omega)
  have b2 : size_t.mul 4 (tw + tn) = 4 * (tw + tn) := size_mul_of_lt (by omega)
  have b3 : size_t.mul 1 ta = ta := by
    rw [size_mul_of_lt (by omega), Nat.one_mul]
  have b4 : size_t.add (4 * (tw + tn)) ta = 4 * (tw + tn) + ta := size_add_of_lt (by omega)
  have b5 : size_t.add (4 * (tw + tn) + ta) header = 4 * (tw + tn) + ta + header :=
    size_add_of_lt hfit
  dsimp only
  rw [b1, b2, b3, b4, b5, Nat.add_sub_cancel]
  have m1 : min tw ((4 * (tw + tn) + ta) / 4) = tw := by
    apply Nat.min_eq_left
    rw [Nat.le_div_iff_mul_le (by decide)]
    omega
  have m2 : min tn ((4 * (tw + tn) + ta) / 4 - tw) = tn := by
    apply Nat.min_eq_left
    have : tw + tn ≤ (4 * (tw + tn) + ta) / 4 := by
      rw [Nat.le_div_iff_mul_le (by decide)]
      omega
    omega
  have m3 : min ta (4 * (tw + tn) + ta - 4 * (tw + tn)) = ta := by
    apply Nat.min_eq_left
    omega
  rw [m1, m2, m3, if_pos ⟨hI, hO, hH⟩,
    if_pos (show 0 < 4 * (tw + tn) + ta by omega),
    if_pos (show calloc (4 * (tw + tn) + ta + header) = true ∧
      header ≤ 4 * (tw + tn) + ta + header from ⟨hgrant, by omega⟩),
    if_pos ⟨hI, hO, hH⟩, if_pos (show 0 < 4 * (tw + tn) + ta by omega)]

/-- C2, as the code has it: at `I = 1`, `H = 2^63`, `O = 1`, `L = 2` (header of
88 bytes, every allocation granted) the formulas give `2^126 + 2^65 + 1`
weights, `2^64 + 2` neurons and `2^64 + 1` tags, and `nn_ffnet_create`, whose
`size_t` arithmetic is modulo `2^64`, returns a network that records and holds
1 weight, 2 neurons and 1 tag. -/
theorem create_records_wrapped_counts :
    (1 + 1) * 2 ^ 63 + (2 - 1) * (2 ^ 63 + 1) * 2 ^ 63 + 1 * (2 ^ 63 + 1) = 2 ^ 126 + 2 ^ 65 + 1 ∧
      1 + 2 ^ 63 * 2 + 1 = 2 ^ 64 + 2 ∧
      2 ^ 63 * 2 + 1 = 2 ^ 64 + 1 ∧
      (size_t.nn_ffnet_create 88 (fun _ => true) 1 (2 ^ 63) 1 2 : Option (nn_ffnet ℚ)).map
          (fun n => (n.nweights, n.nneurons, n.nactivations, n.weight.length, n.output.length,
            n.activation.length)) =
        some (1, 2, 1, 1, 2, 1) := by
  decide!

/-- C2 amended: for all positive widths `I`, `H`, `O` and every `L` such that
the block size (the header and `4 * (total_weights + total_neurons) +
total_activations` bytes, the counts taken without wraparound) is below `2^64`
and the allocator grants the block, `nn_ffnet_create` returns a network whose
`nweights` is `hidden_weights + output_weights` (with `hidden_weights = 0` for
`L = 0` and `(I+1)*H + (L-1)*(H+1)*H` otherwise, and `output_weights = O*(H+1)`
for `L > 0` and `O*(I+1)` otherwise), whose `nneurons` is `I + H*L + O`, whose
`nactivations` is `H*L + O`, and whose three segments hold exactly that many
slots. -/
theorem create_layout_counts_of_fits (α : Type) [Zero α] [One α] [Neg α] (header : Nat)
    (calloc : Nat → Bool) (I H O L : Nat) (hI : 0 < I) (hH : 0 < H) (hO : 0 < O)
    (hfit : 4 * (nn_ffnet_total_weights I H O L + nn_ffnet_total_neurons I H O L) +
      nn_ffnet_total_activations H O L + header < 2 ^ 64)
    (hgrant : calloc (4 * (nn_ffnet_total_weights I H O L + nn_ffnet_total_neurons I H O L) +
      nn_ffnet_total_activations H O L + header) = true) :
    ∃ net : nn_ffnet α, size_t.nn_ffnet_create header calloc I H O L = some net ∧
      net.nweights =
        (if L = 0 then 0 else (I + 1) * H + (L - 1) * (H + 1) * H) +
          (if 0 < L then O * (H + 1) else O * (I + 1)) ∧
      net.nneurons = I + H * L + O ∧
      net.nactivations = H * L + O ∧
      net.weight.length = net.nweights ∧
      net.output.length = net.nneurons ∧
      net.activation.length = net.nactivations := by
  rw [create_of_fits header calloc I H O L hI hH hO hfit hgrant]
  refine ⟨_, create_some I H O L hI hH hO, ?_, rfl, rfl, ?_, ?_, ?_⟩
  · show nn_ffnet_total_weights I H O L = _
    unfold nn_ffnet_total_weights nn_ffnet_hidden_weights nn_ffnet_output_weights
    by_cases h : L = 0
    · simp [h, Nat.mul_comm]
    · simp [h, Nat.pos_of_ne_zero h, Nat.mul_comm]
  · simp
  · simp
  · simp

/-- The worked example of C2: with a header of 88 bytes and every allocation
granted, `nn_ffnet_create` at `I = 2`, `H = 4`, `O = 1`, `L = 1` gives 17
weights, 7 neurons and 5 tags. -/
theorem create_layout_counts_of_fits_witness :
    ∃ net : nn_ffnet ℚ, size_t.nn_ffnet_create 88 (fun _ => true) 2 4 1 1 = some net ∧
      net.nweights = 17 ∧ net.nneurons = 7 ∧ net.nactivations = 5 ∧
      net.weight.length = 17 ∧ net.output.length = 7 ∧ net.activation.length = 5 := by
  obtain ⟨net, h, h1, h2, h3, h4, h5, h6⟩ :=
    create_layout_counts_of_fits ℚ 88 (fun _ => true) 2 4 1 1 (by decide) (by decide)
      (by decide) (by decide) rfl
  exact ⟨net, h, h1, h2, h3, h4.trans h1, h5.trans h2, h6.trans h3⟩

/-! ## Layout and evaluation -/

theorem spec_weight_start_eq (I H O L l j : Nat) (h : l ≤ L) :
    spec_weight_start I H O L l j =
      nn_ffnet_hidden_weights I H 0 l + j * (spec_fan_in I H l + 1) := by
  unfold spec_weight_start spec_fan_in nn_ffnet_hidden_weights
  by_cases h0 : l = 0
  · simp [h0]
  · by_cases h1 : l < L
    · simp only [h0, h1, if_false, if_true]
      ring
    · have : l = L := by omega
      subst this
      simp only [h0, h1, if_false]

/-- `nn_ffnet_run` on a well-formed network with valid tags: it returns, and the
output segment satisfies the layer equations. -/
theorem run_spec {α : Type} [LinearOrderedField α] (expf : α → α) (net : nn_ffnet α)
    (x : List α) (hwf : well_formed net) (hv : ∀ t ∈ net.activation, t < 4)
    (hx : net.ninputs ≤ x.length) :
    ∃ v, nn_ffnet_run expf net x =
        some ({ net with output := v }, net.ninputs + net.nhidden_layers * net.nhiddens) ∧
      v.length = net.nneurons ∧
      (∀ k, k < net.ninputs → v.getD k 0 = x.getD k 0) ∧
      (∀ l j, (l < net.nhidden_layers ∧ j < net.nhiddens) ∨
          (l = net.nhidden_layers ∧ j < net.noutputs) →
        v.getD (net.ninputs + l * net.nhiddens + j) 0 =
          activate_value expf (net.activation.getD (l * net.nhiddens + j) 0)
            (neuron_sum net.weight v net.bias
              (nn_ffnet_hidden_weights net.ninputs net.nhiddens 0 l +
                j * (spec_fan_in net.ninputs net.nhiddens l + 1))
              (spec_prev_start net.ninputs net.nhiddens l)
              (spec_fan_in net.ninputs net.nhiddens l))) := by
  obtain ⟨c1, hs, h1, h2, _, h4, h5, h6⟩ := run_scan_spec expf net x hwf hv hx
  refine ⟨c1.out, ?_, h4, h5, h6⟩
  unfold nn_ffnet_run
  rw [hs]
  simp only [h1, h2, and_self, if_true]

theorem layer_index_lt {H O L l j : Nat} (h : (l < L ∧ j < H) ∨ (l = L ∧ j < O)) :
    l * H + j < H * L + O := by
  rcases h with ⟨hl, hj⟩ | ⟨hl, hj⟩
  · have h1 : (l + 1) * H ≤ L * H := Nat.mul_le_mul_right _ hl
    have h2 : (l + 1) * H = l * H + H := by ring
    have h3 : L * H = H * L := Nat.mul_comm _ _
    omega
  · subst hl
    have h3 : l * H = H * l := Nat.mul_comm _ _
    omega

theorem fill_loop_spec {α : Type} [Zero α] (weight : α) (stride : Nat) (finish : Int) :
    ∀ (n fuel : Nat) (w : List α) (pos : Nat),
      n < fuel →
      (∀ k, k < n → ((pos + (k + 1) * stride : Nat) : Int) < finish) →
      ¬ (((pos + (n + 1) * stride : Nat) : Int) < finish) →
      pos + n * stride < w.length →
      ∃ w1, fill_loop weight stride finish fuel w pos = some w1 ∧
        w1.length = w.length ∧
        ∀ i, w1.getD i 0 =
          if ∃ k, k < n + 1 ∧ i = pos + k * stride then weight else w.getD i 0 := by
  intro n
  induction n with
  | zero =>
    intro fuel w pos hf _ hstop hlen
    obtain ⟨f, rfl⟩ : ∃ f, fuel = f + 1 := ⟨fuel - 1, by omega⟩
    rw [Nat.zero_mul, Nat.add_zero] at hlen
    rw [Nat.zero_add, Nat.one_mul] at hstop
    refine ⟨w.set pos weight, ?_, List.length_set _ _ _, ?_⟩
    · rw [fill_loop, if_pos hlen, if_neg hstop]
    · intro i
      rw [getD_set]
      by_cases h : pos = i
      · subst h
        rw [if_pos ⟨rfl, hlen⟩, if_pos ⟨0, by omega, by simp⟩]
      · rw [if_neg (fun hh => h hh.1), if_neg]
        rintro ⟨k, hk, rfl⟩
        have : k = 0 := by omega
        subst this
        simp at h
  | succ n ih =>
    intro fuel w pos hf hcont hstop hlen
    obtain ⟨f, rfl⟩ : ∃ f, fuel = f + 1 := ⟨fuel - 1, by omega⟩
    have hmul : ∀ k, pos + stride + k * stride = pos + (k + 1) * stride := fun k => by ring
    have h0 : ((pos + stride : Nat) : Int) < finish := by
      have := hcont 0 (by omega)
      rwa [Nat.zero_add, Nat.one_mul] at this
    have hpos : pos < w.length := by
      have := Nat.zero_le ((n + 1) * stride)
      omega
    obtain ⟨w1, hrun, hl, hget⟩ := ih f (w.set pos weight) (pos + stride) (by omega)
      (fun k hk => by rw [hmul]; exact hcont (k + 1) (by omega))
      (by rw [hmul]; exact hstop)
      (by rw [hmul, List.length_set]; exact hlen)
    refine ⟨w1, ?_, by rw [hl, List.length_set], ?_⟩
    · rw [fill_loop, if_pos hpos, if_pos h0]
      exact hrun
    · intro i
      rw [hget i, getD_set]
      by_cases h1 : ∃ k, k < n + 1 ∧ i = pos + stride + k * stride
      · obtain ⟨k, hk, rfl⟩ := h1
        rw [if_pos ⟨k, hk, rfl⟩, if_pos ⟨k + 1, by omega, hmul k⟩]
      · rw [if_neg h1]
        by_cases h2 : pos = i
        · subst h2
          rw [if_pos ⟨rfl, hpos⟩, if_pos ⟨0, by omega, by simp⟩]
        · rw [if_neg (fun hh => h2 hh.1), if_neg]
          rintro ⟨k, hk, rfl⟩
          cases k with
          | zero => simp at h2
          | succ k => exact h1 ⟨k, by omega, (hmul k).symm⟩

theorem memcpy_getD {β : Type} (dst : List β) (d : Nat) (src : List β) (s n : Nat) (z : β)
    (hd : d + n ≤ dst.length) (hs : s + n ≤ src.length) :
    ∃ r, memcpy dst d src s n = some r ∧ r.length = dst.length ∧
      ∀ i, r.getD i z = if d ≤ i ∧ i < d + n then src.getD (s + (i - d)) z else dst.getD i z := by
  obtain ⟨r, h1, h2, h3⟩ := memcpy_spec dst d src s n hd hs
  refine ⟨r, h1, h2, fun i => ?_⟩
  simp only [List.getD_eq_getElem?_getD, h3 i]
  split_ifs <;> rfl

theorem getD_replicate_zero {β : Type} (n i : Nat) (z : β) :
    (List.replicate n z).getD i z = z := by
  rw [List.getD_eq_getElem?_getD, List.getElem?_replicate]
  split_ifs <;> rfl

theorem ptr_back_of_le {a b : Nat} (h : b ≤ a) : ptr_back a b = some (a - b) := by
  rw [ptr_back, if_pos h]

/-- Offset that `nn_ffnet_add_hidden_layer` computes for the block of the layer
it inserts into a network with `L` hidden layers. -/
theorem fill_base_le (I H L : Nat) (hH : 0 < H) (hL : 0 < L) :
    (I + 1) * H + (H + 1) * (L - 1) ≤ nn_ffnet_hidden_weights I H 0 L := by
  unfold nn_ffnet_hidden_weights
  rw [if_neg (by omega)]
  have : (H + 1) * (L - 1) * 1 ≤ (L - 1) * (H + 1) * H := by
    rw [Nat.mul_comm (H + 1) (L - 1)]
    exact Nat.mul_le_mul_left _ hH
  dsimp only
  omega

/-- `nn_ffnet_add_hidden_layer` on a well-formed network whose output block has
fan-in `H` (one hidden layer at least, or no hidden layer and `I = H`): it
returns, and the tag and weight segments of the result are as described, the
filled positions being those the closing loop visits from the offset `base`
that the function computes. -/
theorem add_hidden_layer_spec {α : Type} [Zero α] [One α] [Neg α] [DecidableEq α]
    (net : nn_ffnet α) (fill : α)
    (hwf : well_formed net) (hI : 0 < net.ninputs) (hH : 0 < net.nhiddens)
    (hO : 0 < net.noutputs) (hL : 0 < net.nhidden_layers ∨ net.ninputs = net.nhiddens) :
    ∃ w3 act2, nn_ffnet_add_hidden_layer net fill =
        some
          { ninputs := net.ninputs
            nhiddens := net.nhiddens
            noutputs := net.noutputs
            nhidden_layers := net.nhidden_layers + 1
            nweights := nn_ffnet_total_weights net.ninputs net.nhiddens net.noutputs
              (net.nhidden_layers + 1)
            nneurons := nn_ffnet_total_neurons net.ninputs net.nhiddens net.noutputs
              (net.nhidden_layers + 1)
            nactivations := nn_ffnet_total_activations net.nhiddens net.noutputs
              (net.nhidden_layers + 1)
            bias := -1
            weight := w3
            output := List.replicate (nn_ffnet_total_neurons net.ninputs net.nhiddens
              net.noutputs (net.nhidden_layers + 1)) 0
            activation := act2 } ∧
      w3.length = nn_ffnet_total_weights net.ninputs net.nhiddens net.noutputs
        (net.nhidden_layers + 1) ∧
      act2.length = nn_ffnet_total_activations net.nhiddens net.noutputs
        (net.nhidden_layers + 1) ∧
      (∀ i, act2.getD i 0 =
        if i < net.nhiddens * net.nhidden_layers then net.activation.getD i 0
        else if i < net.nhiddens * (net.nhidden_layers + 1) then 0
        else net.activation.getD (i - net.nhiddens) 0) ∧
      (∀ i, w3.getD i 0 =
        if ∃ k, k < net.nhiddens ∧
            i = (if net.nhidden_layers = 0 then 0
                else (net.ninputs + 1) * net.nhiddens +
                  (net.nhiddens + 1) * (net.nhidden_layers - 1)) + 1 +
              k * (net.nhiddens + 1 + 1) then fill
        else if i < nn_ffnet_hidden_weights net.ninputs net.nhiddens 0 net.nhidden_layers then
          net.weight.getD i 0
        else if i < nn_ffnet_hidden_weights net.ninputs net.nhiddens 0 net.nhidden_layers +
            net.nhiddens * (net.nhiddens + 1) then 0
        else net.weight.getD (i - net.nhiddens * (net.nhiddens + 1)) 0) := by
  obtain ⟨w1, w2, w3, w4, w5, w6⟩ := hwf
  -- the counts involved
  have hF : spec_fan_in net.ninputs net.nhiddens net.nhidden_layers = net.nhiddens := by
    unfold spec_fan_in
    rcases hL with h | h
    · rw [if_neg (by omega)]
    · split_ifs
      · exact h
      · rfl
  have hF1 : spec_fan_in net.ninputs net.nhiddens (net.nhidden_layers + 1) = net.nhiddens := by
    unfold spec_fan_in
    rw [if_neg (by omega)]
  have hnw : net.nweights =
      nn_ffnet_hidden_weights net.ninputs net.nhiddens 0 net.nhidden_layers +
        net.noutputs * (net.nhiddens + 1) := by
    rw [w1, nn_ffnet_total_weights, output_weights_eq, hF]
    rfl
  have hnew : nn_ffnet_total_weights net.ninputs net.nhiddens net.noutputs
      (net.nhidden_layers + 1) =
      nn_ffnet_hidden_weights net.ninputs net.nhiddens 0 net.nhidden_layers +
        net.nhiddens * (net.nhiddens + 1) + net.noutputs * (net.nhiddens + 1) := by
    rw [nn_ffnet_total_weights, output_weights_eq, hF1,
      hidden_weights_irrel _ _ _ 0, hidden_weights_succ, hF]
  have how : nn_ffnet_output_weights net.ninputs net.nhiddens net.noutputs
      (net.nhidden_layers + 1) = net.noutputs * (net.nhiddens + 1) := by
    rw [output_weights_eq, hF1]
  have hna : nn_ffnet_total_activations net.nhiddens net.noutputs (net.nhidden_layers + 1) =
      net.nhiddens * net.nhidden_layers + net.nhiddens + net.noutputs := by
    unfold nn_ffnet_total_activations
    ring
  have hna0 : net.nactivations = net.nhiddens * net.nhidden_layers + net.noutputs := w3
  have hbase : (if net.nhidden_layers = 0 then 0
      else (net.ninputs + 1) * net.nhiddens + (net.nhiddens + 1) * (net.nhidden_layers - 1)) ≤
      nn_ffnet_hidden_weights net.ninputs net.nhiddens 0 net.nhidden_layers := by
    split_ifs with h0
    · exact Nat.zero_le _
    · exact fill_base_le _ _ _ hH (Nat.pos_of_ne_zero h0)
  generalize hbv : (if net.nhidden_layers = 0 then 0
      else (net.ninputs + 1) * net.nhiddens + (net.nhiddens + 1) * (net.nhidden_layers - 1)) =
      base at hbase
  generalize hS : nn_ffnet_hidden_weights net.ninputs net.nhiddens 0 net.nhidden_layers = S
    at hnw hnew hbase
  have hB : net.nhiddens * (net.nhiddens + 1) =
      (net.nhiddens - 1) * (net.nhiddens + 1 + 1) + 2 := by
    obtain ⟨h, hh⟩ : ∃ h, net.nhiddens = h + 1 := ⟨net.nhiddens - 1, by omega⟩
    rw [hh, Nat.add_sub_cancel]
    ring
  have hB2 : net.nhiddens * (net.nhiddens + 1 + 1) =
      net.nhiddens * (net.nhiddens + 1) + net.nhiddens := by ring
  have hBH : net.nhiddens ≤ net.nhiddens * (net.nhiddens + 1) :=
    Nat.le_mul_of_pos_right _ (by omega)
  generalize hC : (net.nhiddens - 1) * (net.nhiddens + 1 + 1) = C at hB
  generalize hP : net.nhiddens * (net.nhiddens + 1 + 1) = P at hB2
  generalize hBdef : net.nhiddens * (net.nhiddens + 1) = B at hnew hB hB2 hBH
  generalize hOW : net.noutputs * (net.nhiddens + 1) = OW at hnw hnew how
  -- the two copies of tags
  obtain ⟨a1, ha1, hla1, hga1⟩ := memcpy_getD
    (List.replicate (nn_ffnet_total_activations net.nhiddens net.noutputs
      (net.nhidden_layers + 1)) 0) 0 net.activation 0
    (net.nhiddens * net.nhidden_layers) 0
    (by rw [List.length_replicate, hna]; omega) (by omega)
  obtain ⟨a2, ha2, hla2, hga2⟩ := memcpy_getD a1
    (nn_ffnet_total_activations net.nhiddens net.noutputs (net.nhidden_layers + 1) -
      net.noutputs) net.activation (net.nactivations - net.noutputs) net.noutputs 0
    (by rw [hla1, List.length_replicate, hna]; omega) (by omega)
  -- the two copies of weights
  obtain ⟨v1, hv1, hlv1, hgv1⟩ := memcpy_getD
    (List.replicate (nn_ffnet_total_weights net.ninputs net.nhiddens net.noutputs
      (net.nhidden_layers + 1)) (0 : α)) 0 net.weight 0
    (net.nweights - OW) 0
    (by rw [List.length_replicate, hnew]; omega) (by omega)
  obtain ⟨v2, hv2, hlv2, hgv2⟩ := memcpy_getD v1
    (nn_ffnet_total_weights net.ninputs net.nhiddens net.noutputs (net.nhidden_layers + 1) -
      OW) net.weight (net.nweights - OW) OW 0
    (by rw [hlv1, List.length_replicate, hnew]; omega) (by omega)
  -- the closing loop
  obtain ⟨v3, hv3, hlv3, hgv3⟩ := fill_loop_spec fill (net.nhiddens + 1 + 1)
    (((base + 1 : Nat) : Int) +
      (((nn_ffnet_total_weights net.ninputs net.nhiddens net.noutputs
        (net.nhidden_layers + 1) : Nat) : Int) - ((net.nweights : Nat) : Int)))
    (net.nhiddens - 1) v2.length v2 (base + 1)
    (by rw [hlv2, hlv1, List.length_replicate, hnew]; omega)
    (fun k hk => by
      have h1 : (k + 1) * (net.nhiddens + 1 + 1) ≤ (net.nhiddens - 1) * (net.nhiddens + 1 + 1) :=
        Nat.mul_le_mul_right _ (by omega)
      rw [hC] at h1
      generalize (k + 1) * (net.nhiddens + 1 + 1) = Q at h1 ⊢
      rw [hnew, hnw]; omega)
    (by rw [hnew, hnw, Nat.sub_add_cancel hH, hP]; omega)
    (by rw [hlv2, hlv1, List.length_replicate, hnew, hC]; omega)
  refine ⟨v3, a2, ?_, by rw [hlv3, hlv2, hlv1, List.length_replicate],
    by rw [hla2, hla1, List.length_replicate], ?_, ?_⟩
  · unfold nn_ffnet_add_hidden_layer
    rw [if_pos hH, create_some _ _ _ _ hI hH hO]
    dsimp only
    rw [ha1]
    dsimp only
    rw [ptr_back_of_le (show net.noutputs ≤ nn_ffnet_total_activations net.nhiddens
      net.noutputs (net.nhidden_layers + 1) by omega),
      ptr_back_of_le (show net.noutputs ≤ net.nactivations by omega)]
    dsimp only
    rw [ha2]
    dsimp only
    rw [how, size_sub_of_le (show OW ≤ net.nweights by omega), memcpy_block,
      if_pos (show net.nweights - OW ≤ (List.replicate (nn_ffnet_total_weights net.ninputs
        net.nhiddens net.noutputs (net.nhidden_layers + 1)) (0 : α)).length by
        rw [List.length_replicate, hnew]; omega), hv1]
    dsimp only [Option.map]
    rw [ptr_back_of_le (show OW ≤ nn_ffnet_total_weights
      net.ninputs net.nhiddens net.noutputs (net.nhidden_layers + 1) by omega),
      ptr_back_of_le (show OW ≤ net.nweights by omega)]
    dsimp only
    rw [hv2]
    dsimp only
    unfold nn_ffnet_weight_at_hidden_layer
    dsimp only
    have hb : (if net.nhidden_layers + 1 - 1 = 0 then some 0
        else if net.nhidden_layers + 1 - 1 - 1 < net.nhidden_layers + 1 then
          some ((net.ninputs + 1) * net.nhiddens +
            (net.nhiddens + 1) * (net.nhidden_layers + 1 - 1 - 1))
        else none) = some base := by
      rw [← hbv, Nat.add_sub_cancel]
      by_cases h0 : net.nhidden_layers = 0
      · rw [if_pos h0, if_pos h0]
      · rw [if_neg h0, if_neg h0, if_pos (by omega)]
    rw [hb]
    dsimp only
    rw [hv3]
  · intro i
    have hmul : net.nhiddens * (net.nhidden_layers + 1) =
        net.nhiddens * net.nhidden_layers + net.nhiddens := by ring
    rw [hga2 i, hga1 i, getD_replicate_zero, hmul]
    by_cases h1 : i < net.nhiddens * net.nhidden_layers
    · rw [if_neg (by omega), if_pos ⟨Nat.zero_le _, by omega⟩, if_pos h1]
      congr 1
      omega
    · rw [if_neg h1]
      by_cases h2 : i < net.nhiddens * net.nhidden_layers + net.nhiddens
      · rw [if_neg (by omega), if_neg (by omega), if_pos h2]
      · rw [if_neg h2]
        by_cases h3 : i < nn_ffnet_total_activations net.nhiddens net.noutputs
            (net.nhidden_layers + 1)
        · rw [if_pos ⟨by omega, by omega⟩]
          congr 1
          omega
        · rw [if_neg (by omega), if_neg (by omega),
            List.getD_eq_default _ _ (show net.activation.length ≤ i - net.nhiddens by omega)]
  · intro i
    rw [hgv3 i, hgv2 i, hgv1 i, getD_replicate_zero, Nat.sub_add_cancel hH]
    by_cases hk : ∃ k, k < net.nhiddens ∧ i = base + 1 + k * (net.nhiddens + 1 + 1)
    · rw [if_pos hk, if_pos hk]
    · rw [if_neg hk, if_neg hk]
      by_cases h1 : i < S
      · rw [if_neg (by omega), if_pos ⟨Nat.zero_le _, by omega⟩, if_pos h1]
        congr 1
        omega
      · rw [if_neg h1]
        by_cases h2 : i < S + B
        · rw [if_neg (by omega), if_neg (by omega), if_pos h2]
        · rw [if_neg h2]
          by_cases h3 : i < nn_ffnet_total_weights net.ninputs net.nhiddens net.noutputs
              (net.nhidden_layers + 1)
          · rw [if_pos ⟨by omega, by omega⟩]
            congr 1
            omega
          · rw [if_neg (by omega), if_neg (by omega),
              List.getD_eq_default _ _ (show net.weight.length ≤ i - B by omega)]

theorem diag_hit_unique (H j m k : Nat) (hj : j < H) (hm : m < H)
    (h : k * (H + 1 + 1) = j * (H + 1) + m) : m = j := by
  have e1 : j * (H + 1 + 1) = j * (H + 1) + j := by ring
  rcases Nat.lt_trichotomy k j with hlt | heq | hgt
  · have h1 : (k + 1) * (H + 1 + 1) ≤ j * (H + 1 + 1) := Nat.mul_le_mul_right _ hlt
    have e2 : (k + 1) * (H + 1 + 1) = k * (H + 1 + 1) + H + 2 := by ring
    generalize k * (H + 1 + 1) = a at *
    generalize j * (H + 1 + 1) = b at *
    generalize j * (H + 1) = c at *
    omega
  · subst heq
    generalize k * (H + 1 + 1) = a at *
    generalize k * (H + 1) = c at *
    omega
  · have h1 : (j + 1) * (H + 1 + 1) ≤ k * (H + 1 + 1) := Nat.mul_le_mul_right _ hgt
    have e2 : (j + 1) * (H + 1 + 1) = j * (H + 1 + 1) + H + 2 := by ring
    generalize k * (H + 1 + 1) = a at *
    generalize (j + 1) * (H + 1 + 1) = d at *
    generalize j * (H + 1 + 1) = b at *
    generalize j * (H + 1) = c at *
    omega

theorem bias_not_hit (H j k : Nat) (hj : j < H) : j * (H + 1) ≠ 1 + k * (H + 1 + 1) := by
  intro h
  have e1 : j * (H + 1 + 1) = j * (H + 1) + j := by ring
  rcases Nat.lt_or_ge k j with hlt | hge
  · have h1 : (k + 1) * (H + 1 + 1) ≤ j * (H + 1 + 1) := Nat.mul_le_mul_right _ hlt
    have e2 : (k + 1) * (H + 1 + 1) = k * (H + 1 + 1) + H + 2 := by ring
    generalize k * (H + 1 + 1) = a at *
    generalize (k + 1) * (H + 1 + 1) = d at *
    generalize j * (H + 1 + 1) = b at *
    generalize j * (H + 1) = c at *
    omega
  · have h1 : j * (H + 1 + 1) ≤ k * (H + 1 + 1) := Nat.mul_le_mul_right _ hge
    generalize k * (H + 1 + 1) = a at *
    generalize j * (H + 1 + 1) = b at *
    generalize j * (H + 1) = c at *
    omega

theorem run_index_lt (H j m : Nat) (hj : j < H) (hm : m < H) :
    j * (H + 1) + 1 + m < H * (H + 1) := by
  have h1 : (j + 1) * (H + 1) ≤ H * (H + 1) := Nat.mul_le_mul_right _ hj
  have e2 : (j + 1) * (H + 1) = j * (H + 1) + H + 1 := by ring
  generalize (j + 1) * (H + 1) = d at *
  generalize j * (H + 1) = c at *
  generalize H * (H + 1) = b at *
  omega

theorem fill_base_eq (I H L : Nat) (hoff : L ≤ 1 ∨ H = 1) :
    (if L = 0 then 0 else (I + 1) * H + (H + 1) * (L - 1)) =
      nn_ffnet_hidden_weights I H 0 L := by
  unfold nn_ffnet_hidden_weights
  by_cases h0 : L = 0
  · rw [if_pos h0, if_pos h0]
  · rw [if_neg h0, if_neg h0]
    rcases hoff with h | h
    · have : L = 1 := by omega
      subst this
      simp
    · subst h
      simp only []
      ring

/-- C4 at `I = 2`, `H = 1`, `O = 1`, `L = 0`, weights `[0, 0, 1]`, output tag
passthrough, bias `-1`, input `[0, 1]`: the network returns `[1]`; after
`nn_ffnet_add_hidden_layer` with fill weight 1 its weights are
`[0, 1, 0, 0, 1]` and it returns `[0]`. -/
theorem growth_from_no_hidden_layer_changes_output :
    run_outputs no_exp (build 2 1 1 0 [0, 0, 1] [0] (-1)) [0, 1] = some [1] ∧
      (grow (build 2 1 1 0 [0, 0, 1] [0] (-1 : ℚ)) 1).map (fun n => (n.weight, n.activation)) =
        some ([0, 1, 0, 0, 1], [0, 0]) ∧
      run_outputs no_exp (grow (build 2 1 1 0 [0, 0, 1] [0] (-1)) 1) [0, 1] = some [0] := by
  decide!

/-- C5 at `I = 1`, `H = 2`, `O = 1`, `L = 2`, all tags passthrough, bias `-1`,
input `[1]`: the network returns `[1]`, the grown network returns `[0]`. -/
theorem growth_from_two_hidden_layers_changes_output :
    run_outputs no_exp
        (build 1 2 1 2 [0, 0, 0, 1, 0, 0, 1, 0, 0, 0, 0, 1, 0] [0, 0, 0, 0, 0] (-1)) [1] =
      some [1] ∧
      run_outputs no_exp
        (grow (build 1 2 1 2 [0, 0, 0, 1, 0, 0, 1, 0, 0, 0, 0, 1, 0] [0, 0, 0, 0, 0] (-1)) 1)
        [1] = some [0] := by
  decide!

/-- C6 at `I = 1`, `H = 2`, `O = 1`, `L = 2` and fill weight 1: index 8 lies
below `hidden_weights = 10`, the network has weight 0 there and the grown
network has 1. -/
theorem growth_overwrites_copied_weight :
    nn_ffnet_hidden_weights 1 2 1 2 = 10 ∧
      (build 1 2 1 2 [0, 0, 0, 1, 0, 0, 1, 0, 0, 0, 0, 1, 0] [0, 0, 0, 0, 0] (-1 : ℚ)).map
        (fun n => n.weight[8]?) = some (some 0) ∧
      (grow (build 1 2 1 2 [0, 0, 0, 1, 0, 0, 1, 0, 0, 0, 0, 1, 0] [0, 0, 0, 0, 0] (-1 : ℚ))
        1).map (fun n => n.weight) =
        some [0, 0, 0, 1, 0, 0, 1, 0, 1, 0, 0, 0, 1, 0, 0, 0, 0, 1, 0] := by
  decide!

/-- C8 at `I = 6`, `H = 1`, `O = 8`, `L = 0`, all 56 weights zero, the eight
output tags 1: `nn_ffnet_add_hidden_layer` returns a network of 23 weights, 15
neurons and 9 tags, and its tags are `[0, 0, 0, 0, 0, 0, 0, 0, 1]`, where tag
migration has `[0, 1, 1, 1, 1, 1, 1, 1, 1]`: the copy of `56 - 16 = 40` floats
to the start of the new weight segment runs over the 23 weights, the 15 outputs
and the first 8 tags, which the earlier copy of the output tags had set. -/
theorem growth_overwrites_tags :
    (build 6 1 8 0 (List.replicate 56 0) [1, 1, 1, 1, 1, 1, 1, 1] (-1 : ℚ)).map
        (fun n => (n.nweights, n.activation)) = some (56, [1, 1, 1, 1, 1, 1, 1, 1]) ∧
      nn_ffnet_output_weights 6 1 8 (0 + 1) = 16 ∧
      (grow (build 6 1 8 0 (List.replicate 56 0) [1, 1, 1, 1, 1, 1, 1, 1] (-1 : ℚ)) 1).map
          (fun n => (n.nweights, n.nneurons, n.nactivations, n.activation)) =
        some (23, 15, 9, [0, 0, 0, 0, 0, 0, 0, 0, 1]) ∧
      (grow (build 6 1 8 0 (List.replicate 56 0) [1, 1, 1, 1, 1, 1, 1, 1] (-1 : ℚ)) 1).map
          (fun n => n.activation[1 * (0 + 1) + 0]?) ≠
        (build 6 1 8 0 (List.replicate 56 0) [1, 1, 1, 1, 1, 1, 1, 1] (-1 : ℚ)).map
          (fun n => n.activation[1 * 0 + 0]?) := by
  decide!

/-- C9 at `I = 2`, `H = 1`, `O = 3`, `L = 0`, neuron 4 (output neuron 2):
`nn_ffnet_get_weight_to_neuron` returns 6, the start of that neuron's weight
run (its bias weight); with `weight[6] = 1`, bias `-1` and input `[5, 7]` the
output of neuron 4 is `-1`, whatever the inputs' values. -/
theorem weight_to_neuron_hits_bias_weight :
    (build 2 1 3 0 [0, 0, 0, 0, 0, 0, 1, 0, 0] [0, 0, 0] (-1 : ℚ)).bind
        (fun n => nn_ffnet_get_weight_to_neuron n 4) = some 6 ∧
      spec_weight_start 2 1 3 0 0 2 = 6 ∧
      run_outputs no_exp (build 2 1 3 0 [0, 0, 0, 0, 0, 0, 1, 0, 0] [0, 0, 0] (-1)) [5, 7] =
        some [0, 0, -1] := by
  decide!

/-- C10 at `I = 1`, `H = 2`, `O = 4`, `L = 0`, neuron 4 (output neuron 3, fan-in
1): `nn_ffnet_get_weight_to_neuron` returns 8, the number of weights. -/
theorem weight_to_neuron_out_of_range :
    (build 1 2 4 0 [0, 0, 0, 0, 0, 0, 0, 0] [0, 0, 0, 0] (-1 : ℚ)).bind
        (fun n => nn_ffnet_get_weight_to_neuron n 4) = some 8 ∧
      (build 1 2 4 0 [0, 0, 0, 0, 0, 0, 0, 0] [0, 0, 0, 0] (-1 : ℚ)).map
        (fun n => (n.nweights, n.nneurons)) = some (8, 5) ∧
      spec_fan_in 1 2 0 = 1 ∧
      nn_ffnet_total_weights 1 2 4 0 < 8 + spec_fan_in 1 2 0 := by
  decide!

/-! ## Addressing with at least one hidden layer -/

/-- With at least one hidden layer `nn_ffnet_get_weight_to_neuron` returns the
index after the start of the neuron's weight run, for every non-input neuron. -/
theorem weight_to_neuron_with_hidden_layer {α : Type} (net : nn_ffnet α) (l j : Nat)
    (hn : net.nneurons = net.ninputs + net.nhiddens * net.nhidden_layers + net.noutputs)
    (hL : 0 < net.nhidden_layers)
    (hlj : (l < net.nhidden_layers ∧ j < net.nhiddens) ∨
      (l = net.nhidden_layers ∧ j < net.noutputs)) :
    nn_ffnet_get_weight_to_neuron net (net.ninputs + l * net.nhiddens + j) =
      some (spec_weight_start net.ninputs net.nhiddens net.noutputs net.nhidden_layers l j +
        1) := by
  have hidx := layer_index_lt hlj
  unfold nn_ffnet_get_weight_to_neuron
  rw [if_pos ⟨by omega, by omega⟩]
  have e1 : net.ninputs + l * net.nhiddens + j - net.ninputs = l * net.nhiddens + j := by omega
  simp only [e1]
  unfold spec_weight_start
  by_cases h0 : l = 0
  · subst h0
    have hj : j < net.nhiddens := by
      rcases hlj with ⟨_, h⟩ | ⟨h, _⟩
      · exact h
      · omega
    rw [Nat.zero_mul, Nat.zero_add, if_pos hj, if_pos rfl]
  · obtain ⟨m, rfl⟩ : ∃ m, l = m + 1 := ⟨l - 1, by omega⟩
    have e2 : (m + 1) * net.nhiddens = m * net.nhiddens + net.nhiddens := by ring
    rw [if_neg (by omega), if_neg h0]
    have e3 : (m + 1) * net.nhiddens + j - net.nhiddens = m * net.nhiddens + j := by omega
    rw [e3, Nat.add_sub_cancel]
    split_ifs with h1
    · rfl
    · have hm : m + 1 = net.nhidden_layers := by
        rcases hlj with ⟨h, _⟩ | ⟨h, _⟩
        · omega
        · exact h
      unfold nn_ffnet_hidden_weights
      rw [if_neg (by omega), ← hm, Nat.add_sub_cancel]
      simp only [Option.some.injEq]
      ring

/-! ## Growth preserves evaluation where the inserted block is addressed -/

theorem neuron_sum_ext {α : Type} [LinearOrderedField α] (w w1 v v1 : List α) (b : α)
    (s s1 p p1 F : Nat) (h0 : w1.getD s1 0 = w.getD s 0)
    (hw : ∀ k, k < F → w1.getD (s1 + 1 + k) 0 = w.getD (s + 1 + k) 0)
    (hv : ∀ k, k < F → v1.getD (p1 + k) 0 = v.getD (p + k) 0) :
    neuron_sum w1 v1 b s1 p1 F = neuron_sum w v b s p F := by
  unfold neuron_sum
  rw [h0]
  congr 1
  apply Finset.sum_congr rfl
  intro k hk
  rw [hw k (Finset.mem_range.mp hk), hv k (Finset.mem_range.mp hk)]

theorem neuron_sum_diag {α : Type} [LinearOrderedField α] (w v : List α) (b : α)
    (s p F j : Nat) (hj : j < F) (h0 : w.getD s 0 = 0)
    (hw : ∀ k, k < F → w.getD (s + 1 + k) 0 = if k = j then 1 else 0) :
    neuron_sum w v b s p F = v.getD (p + j) 0 := by
  unfold neuron_sum
  rw [h0, zero_mul, zero_add]
  rw [Finset.sum_eq_single j]
  · rw [hw j hj, if_pos rfl, one_mul]
  · intro k hk hkj
    rw [hw k (Finset.mem_range.mp hk), if_neg hkj, zero_mul]
  · intro h
    exact absurd (Finset.mem_range.mpr hj) h

theorem activate_value_passthrough {α : Type} [LinearOrderedField α] (expf : α → α) (x : α) :
    activate_value expf 0 x = x := by
  simp [activate_value, nn_activate, NN_ACTIVATION_PASSTHROUGH]

/-- The weight segment after growth, where the inserted block is addressed:
the prefix, the identity pattern of the inserted block, and the moved output
block. -/
theorem grown_weights_spec {α : Type} [Zero α] [One α] [Neg α] [DecidableEq α]
    (net : nn_ffnet α) (fill : α)
    (hwf : well_formed net) (hI : 0 < net.ninputs) (hH : 0 < net.nhiddens)
    (hO : 0 < net.noutputs) (hfan : 0 < net.nhidden_layers ∨ net.ninputs = net.nhiddens)
    (hoff : net.nhidden_layers ≤ 1 ∨ net.nhiddens = 1) :
    ∃ new, nn_ffnet_add_hidden_layer net fill = some new ∧
      new.ninputs = net.ninputs ∧ new.nhiddens = net.nhiddens ∧
      new.noutputs = net.noutputs ∧ new.nhidden_layers = net.nhidden_layers + 1 ∧
      new.bias = -1 ∧ well_formed new ∧
      (∀ i, new.activation.getD i 0 =
        if i < net.nhiddens * net.nhidden_layers then net.activation.getD i 0
        else if i < net.nhiddens * (net.nhidden_layers + 1) then 0
        else net.activation.getD (i - net.nhiddens) 0) ∧
      (∀ i, i < nn_ffnet_hidden_weights net.ninputs net.nhiddens 0 net.nhidden_layers →
        new.weight.getD i 0 = net.weight.getD i 0) ∧
      (∀ j, j < net.nhiddens →
        new.weight.getD (nn_ffnet_hidden_weights net.ninputs net.nhiddens 0
          net.nhidden_layers + j * (net.nhiddens + 1)) 0 = 0 ∧
        ∀ m, m < net.nhiddens →
          new.weight.getD (nn_ffnet_hidden_weights net.ninputs net.nhiddens 0
            net.nhidden_layers + j * (net.nhiddens + 1) + 1 + m) 0 =
            if m = j then fill else 0) ∧
      (∀ i, new.weight.getD (nn_ffnet_hidden_weights net.ninputs net.nhiddens 0
          net.nhidden_layers + net.nhiddens * (net.nhiddens + 1) + i) 0 =
        net.weight.getD
          (nn_ffnet_hidden_weights net.ninputs net.nhiddens 0 net.nhidden_layers + i) 0) := by
  obtain ⟨w3, act2, hrun, hlen, hlen2, hact, hget⟩ :=
    add_hidden_layer_spec net fill hwf hI hH hO hfan
  rw [fill_base_eq _ _ _ hoff] at hget
  refine ⟨_, hrun, rfl, rfl, rfl, rfl, rfl,
    ⟨rfl, rfl, rfl, hlen, List.length_replicate _ _, hlen2⟩, hact, ?_, ?_, ?_⟩
  · intro i hi
    show w3.getD i 0 = _
    rw [hget, if_neg, if_pos hi]
    rintro ⟨k, _, hk⟩
    omega
  · intro j hj
    have hjj := run_index_lt net.nhiddens j j hj hj
    constructor
    · show w3.getD _ 0 = _
      rw [hget, if_neg, if_neg (by omega), if_pos (by omega)]
      rintro ⟨k, _, hk⟩
      exact bias_not_hit net.nhiddens j k hj (by omega)
    · intro m hm
      have hjm := run_index_lt net.nhiddens j m hj hm
      show w3.getD _ 0 = _
      rw [hget]
      by_cases hmj : m = j
      · subst hmj
        rw [if_pos rfl, if_pos]
        exact ⟨m, hm, by ring⟩
      · rw [if_neg hmj, if_neg, if_neg (by omega), if_pos (by omega)]
        rintro ⟨k, _, hk⟩
        exact hmj (diag_hit_unique net.nhiddens j m k hj hm (by omega))
  · intro i
    show w3.getD _ 0 = _
    rw [hget, if_neg, if_neg (by omega), if_neg (by omega)]
    · congr 1
      omega
    · rintro ⟨k, hk, hki⟩
      have h1 : (k + 1) * (net.nhiddens + 1 + 1) ≤ net.nhiddens * (net.nhiddens + 1 + 1) :=
        Nat.mul_le_mul_right _ hk
      have e1 : (k + 1) * (net.nhiddens + 1 + 1) = k * (net.nhiddens + 1 + 1) + net.nhiddens + 2 := by
        ring
      have e2 : net.nhiddens * (net.nhiddens + 1 + 1) =
          net.nhiddens * (net.nhiddens + 1) + net.nhiddens := by ring
      generalize (k + 1) * (net.nhiddens + 1 + 1) = a at *
      generalize k * (net.nhiddens + 1 + 1) = b at *
      generalize net.nhiddens * (net.nhiddens + 1 + 1) = c at *
      generalize net.nhiddens * (net.nhiddens + 1) = d at *
      omega

theorem getD_tag_lt (l : List Nat) (h : ∀ t ∈ l, t < 4) (i : Nat) : l.getD i 0 < 4 := by
  by_cases hi : i < l.length
  · apply h
    rw [List.getD_eq_getElem _ _ hi]
    exact List.getElem_mem _
  · rw [List.getD_eq_default _ _ (by omega)]
    omega

theorem take_drop_ext {β : Type} (v v1 : List β) (z : β) (a a1 n : Nat)
    (h1 : a + n ≤ v.length) (h2 : a1 + n ≤ v1.length)
    (h : ∀ j, j < n → v1.getD (a1 + j) z = v.getD (a + j) z) :
    (v1.drop a1).take n = (v.drop a).take n := by
  apply List.ext_getElem?
  intro i
  rw [List.getElem?_take, List.getElem?_take, List.getElem?_drop, List.getElem?_drop]
  split_ifs with hi
  · rw [getElem?_eq_some_getD v1 z (by omega), getElem?_eq_some_getD v z (by omega), h i hi]
  · rfl

theorem run_weight_index_lt (H F j k : Nat) (hj : j < H) (hk : k < F + 1) :
    j * (F + 1) + k < H * (F + 1) := by
  have h1 : (j + 1) * (F + 1) ≤ H * (F + 1) := Nat.mul_le_mul_right _ hj
  have e2 : (j + 1) * (F + 1) = j * (F + 1) + F + 1 := by ring
  generalize (j + 1) * (F + 1) = d at *
  generalize j * (F + 1) = c at *
  generalize H * (F + 1) = b at *
  omega

/-- Growth with fill weight 1 preserves the outputs of a network with bias
scalar `-1`, where the output block has fan-in `H` and the inserted block is
addressed by `nn_ffnet_weight_at_hidden_layer`. -/
theorem growth_preserves_run {α : Type} [LinearOrderedField α] (expf : α → α)
    (net : nn_ffnet α) (x : List α) (hwf : well_formed net) (hI : 0 < net.ninputs)
    (hH : 0 < net.nhiddens) (hO : 0 < net.noutputs) (hv : ∀ t ∈ net.activation, t < 4)
    (hx : net.ninputs ≤ x.length)
    (hfan : 0 < net.nhidden_layers ∨ net.ninputs = net.nhiddens)
    (hoff : net.nhidden_layers ≤ 1 ∨ net.nhiddens = 1) (hb : net.bias = -1) :
    ∃ new r r1, nn_ffnet_add_hidden_layer net 1 = some new ∧
      nn_ffnet_run expf net x = some r ∧ nn_ffnet_run expf new x = some r1 ∧
      run_view r1 = run_view r := by
  obtain ⟨new, hgrow, n1, n2, n3, n4, n5, nwf, hact, hpre, hblk, htail⟩ :=
    grown_weights_spec net 1 hwf hI hH hO hfan hoff
  have hv1 : ∀ t ∈ new.activation, t < 4 := by
    intro t ht
    obtain ⟨i, hi, rfl⟩ := List.getElem_of_mem ht
    have e := hact i
    rw [List.getD_eq_getElem _ _ hi] at e
    rw [e]
    split_ifs
    · exact getD_tag_lt _ hv _
    · omega
    · exact getD_tag_lt _ hv _
  obtain ⟨v, hr, hvl, hvin, hveq⟩ := run_spec expf net x hwf hv hx
  obtain ⟨v1, hr1, hv1l, hv1in, hv1eq⟩ := run_spec expf new x nwf hv1 (by rw [n1]; exact hx)
  rw [n1, n2, n3, n4, n5] at hv1eq
  rw [n1] at hv1in
  have hF : spec_fan_in net.ninputs net.nhiddens net.nhidden_layers = net.nhiddens := by
    unfold spec_fan_in
    rcases hfan with h | h
    · rw [if_neg (by omega)]
    · split_ifs
      · exact h
      · rfl
  have hF1 : spec_fan_in net.ninputs net.nhiddens (net.nhidden_layers + 1) = net.nhiddens := by
    unfold spec_fan_in
    rw [if_neg (by omega)]
  have hLH : net.nhidden_layers * net.nhiddens = net.nhiddens * net.nhidden_layers :=
    Nat.mul_comm _ _
  have hLH1 : (net.nhidden_layers + 1) * net.nhiddens =
      net.nhiddens * net.nhidden_layers + net.nhiddens := by ring
  have hHL1 : net.nhiddens * (net.nhidden_layers + 1) =
      net.nhiddens * net.nhidden_layers + net.nhiddens := by ring
  -- the hidden layers of the network compute the same values after growth
  have hprefix : ∀ l, l ≤ net.nhidden_layers → ∀ idx, idx < net.ninputs + l * net.nhiddens →
      v1.getD idx 0 = v.getD idx 0 := by
    intro l
    induction l with
    | zero =>
      intro _ idx hidx
      rw [hv1in idx (by omega), hvin idx (by omega)]
    | succ l ih =>
      intro hl idx hidx
      have e1 : (l + 1) * net.nhiddens = l * net.nhiddens + net.nhiddens := by ring
      by_cases h : idx < net.ninputs + l * net.nhiddens
      · exact ih (by omega) idx h
      · obtain ⟨j, rfl, hj⟩ : ∃ j, idx = net.ninputs + l * net.nhiddens + j ∧
            j < net.nhiddens := ⟨idx - (net.ninputs + l * net.nhiddens), by omega, by omega⟩
        have hle : (l + 1) * net.nhiddens ≤ net.nhidden_layers * net.nhiddens :=
          Nat.mul_le_mul_right _ hl
        rw [hv1eq l j (Or.inl ⟨by omega, hj⟩), hveq l j (Or.inl ⟨by omega, hj⟩),
          hact, if_pos (by omega), hb]
        congr 1
        have hs := hidden_weights_succ net.ninputs net.nhiddens 0 l
        have hm := hidden_weights_mono net.ninputs net.nhiddens 0
          (show l + 1 ≤ net.nhidden_layers by omega)
        have hpf := prev_start_add_fan_in net.ninputs net.nhiddens l
        apply neuron_sum_ext
        · apply hpre
          have := run_weight_index_lt net.nhiddens
            (spec_fan_in net.ninputs net.nhiddens l) j 0 hj (by omega)
          omega
        · intro k hk
          apply hpre
          have := run_weight_index_lt net.nhiddens
            (spec_fan_in net.ninputs net.nhiddens l) j (1 + k) hj (by omega)
          omega
        · intro k hk
          exact ih (by omega) _ (by omega)
  have hpf := prev_start_add_fan_in net.ninputs net.nhiddens net.nhidden_layers
  -- the inserted layer copies the layer before it
  have hins : ∀ j, j < net.nhiddens →
      v1.getD (net.ninputs + net.nhidden_layers * net.nhiddens + j) 0 =
        v.getD (spec_prev_start net.ninputs net.nhiddens net.nhidden_layers + j) 0 := by
    intro j hj
    rw [hv1eq _ j (Or.inl ⟨by omega, hj⟩), hact, if_neg (by omega), if_pos (by omega),
      activate_value_passthrough, hF,
      neuron_sum_diag _ _ _ _ _ _ j hj (hblk j hj).1 (hblk j hj).2]
    exact hprefix _ (Nat.le_refl _) _ (by omega)
  -- the output layer
  have hout : ∀ j, j < net.noutputs →
      v1.getD (net.ninputs + (net.nhidden_layers + 1) * net.nhiddens + j) 0 =
        v.getD (net.ninputs + net.nhidden_layers * net.nhiddens + j) 0 := by
    intro j hj
    rw [hv1eq _ j (Or.inr ⟨rfl, hj⟩), hveq _ j (Or.inr ⟨rfl, hj⟩), hact,
      if_neg (by omega), if_neg (by omega), hb, hF, hF1, prev_start_succ,
      hidden_weights_succ, hF]
    have e : (net.nhidden_layers + 1) * net.nhiddens + j - net.nhiddens =
        net.nhidden_layers * net.nhiddens + j := by omega
    rw [e]
    congr 1
    apply neuron_sum_ext
    · exact htail _
    · intro k _
      have := htail (j * (net.nhiddens + 1) + 1 + k)
      simp only [← Nat.add_assoc] at this
      exact this
    · intro k hk
      exact hins k hk
  have hnn : net.nneurons =
      net.ninputs + net.nhiddens * net.nhidden_layers + net.noutputs := hwf.2.1
  have hnn1 : new.nneurons =
      net.ninputs + net.nhiddens * (net.nhidden_layers + 1) + net.noutputs := by
    rw [nwf.2.1, n1, n2, n3, n4]
    rfl
  refine ⟨new, _, _, hgrow, hr, hr1, ?_⟩
  show List.take new.noutputs (List.drop (new.ninputs + new.nhidden_layers * new.nhiddens) v1) =
    List.take net.noutputs (List.drop (net.ninputs + net.nhidden_layers * net.nhiddens) v)
  rw [n1, n2, n3, n4]
  exact take_drop_ext v v1 0 _ _ _ (by omega) (by omega) hout

/-! ## The created network -/

/-- C14: for all positive widths `I`, `H`, `O` and every `L`, the network that
`nn_ffnet_create` returns has every weight 0, every output value 0, every
activation tag 0 (passthrough) and bias scalar `-1`. -/
theorem create_is_zeroed (α : Type) [LinearOrderedField α] (I H O L : Nat) (hI : 0 < I)
    (hH : 0 < H) (hO : 0 < O) :
    ∃ net : nn_ffnet α, nn_ffnet_create I H O L = some net ∧
      (∀ w ∈ net.weight, w = 0) ∧
      (∀ v ∈ net.output, v = 0) ∧
      (∀ t ∈ net.activation, t = NN_ACTIVATION_PASSTHROUGH) ∧
      net.bias = -1 := by
  refine ⟨_, create_some I H O L hI hH hO, ?_, ?_, ?_, rfl⟩
  · intro w hw
    exact List.eq_of_mem_replicate hw
  · intro v hv
    exact List.eq_of_mem_replicate hv
  · intro t ht
    exact List.eq_of_mem_replicate ht

/-- C14 at `nn_ffnet_create 2 4 1 1` over `ℚ`. -/
theorem create_is_zeroed_witness :
    ∃ net : nn_ffnet ℚ, nn_ffnet_create 2 4 1 1 = some net ∧
      (∀ w ∈ net.weight, w = 0) ∧
      (∀ v ∈ net.output, v = 0) ∧
      (∀ t ∈ net.activation, t = NN_ACTIVATION_PASSTHROUGH) ∧
      net.bias = -1 :=
  create_is_zeroed ℚ 2 4 1 1 (by decide) (by decide) (by decide)

/-- C16, as the code has it: with all three widths positive `nn_ffnet_create`
returns no network at `I = 2^62 - 9`, `H = 2^63`, `O = 4`, `L = 2`, where the
`size_t` byte count is 0 and `assert(items_bytes > 0)` fails, and at
`I = H = O = 1`, `L = 0` when the allocator refuses the block and `assert(net)`
fails. -/
theorem create_fails_with_positive_widths :
    size_t.add
        (size_t.mul 4
          (size_t.add (size_t.nn_ffnet_total_weights (2 ^ 62 - 9) (2 ^ 63) 4 2)
            (size_t.nn_ffnet_total_neurons (2 ^ 62 - 9) (2 ^ 63) 4 2)))
        (size_t.mul 1 (size_t.nn_ffnet_total_activations (2 ^ 63) 4 2)) = 0 ∧
      (size_t.nn_ffnet_create 88 (fun _ => true) (2 ^ 62 - 9) (2 ^ 63) 4 2 :
        Option (nn_ffnet ℚ)) = none ∧
      (size_t.nn_ffnet_create 88 (fun _ => false) 1 1 1 0 : Option (nn_ffnet ℚ)) = none := by
  decide!

/-- C16 amended: `nn_ffnet_create` returns no network when one of `I`, `H`,
`O` is zero; for positive `I`, `H`, `O` and every `L` (`L = 0` included) such
that the block size (the header and `4 * (total_weights + total_neurons) +
total_activations` bytes, the counts taken without wraparound) is below `2^64`
and the allocator grants the block, it returns a network. -/
theorem create_fails_on_zero_width (α : Type) [Zero α] [One α] [Neg α] (header : Nat)
    (calloc : Nat → Bool) (I H O L : Nat) :
    ((I = 0 ∨ H = 0 ∨ O = 0) →
        (size_t.nn_ffnet_create header calloc I H O L : Option (nn_ffnet α)) = none) ∧
      (0 < I → 0 < H → 0 < O →
        4 * (nn_ffnet_total_weights I H O L + nn_ffnet_total_neurons I H O L) +
          nn_ffnet_total_activations H O L + header < 2 ^ 64 →
        calloc (4 * (nn_ffnet_total_weights I H O L + nn_ffnet_total_neurons I H O L) +
          nn_ffnet_total_activations H O L + header) = true →
        ∃ net : nn_ffnet α, size_t.nn_ffnet_create header calloc I H O L = some net) := by
  constructor
  · intro h
    unfold size_t.nn_ffnet_create
    rw [if_neg]
    intro hp
    omega
  · intro hI hH hO hfit hgrant
    rw [create_of_fits header calloc I H O L hI hH hO hfit hgrant]
    exact ⟨_, create_some I H O L hI hH hO⟩

/-- C16 at `I = H = O = 1` with no hidden layer, a header of 88 bytes and
every allocation granted: a network is returned; and with `H = 0` none is. -/
theorem create_fails_on_zero_width_witness :
    (∃ net : nn_ffnet ℚ, size_t.nn_ffnet_create 88 (fun _ => true) 1 1 1 0 = some net) ∧
      (size_t.nn_ffnet_create 88 (fun _ => true) 1 0 1 0 : Option (nn_ffnet ℚ)) = none :=
  ⟨(create_fails_on_zero_width ℚ 88 (fun _ => true) 1 1 1 0).2 (by decide) (by decide)
      (by decide) (by decide) rfl,
    (create_fails_on_zero_width ℚ 88 (fun _ => true) 1 0 1 0).1 (Or.inr (Or.inl rfl))⟩

/-! ## The output block under growth -/

/-- C17, as the code has it: at `I = 2`, `H = 1`, `O = 1` the output block has 3
weights with no hidden layer and 2 weights with one. -/
theorem output_weights_change_at_first_layer :
    nn_ffnet_output_weights 2 1 1 0 = 3 ∧ nn_ffnet_output_weights 2 1 1 (0 + 1) = 2 ∧
      nn_ffnet_output_weights 2 1 1 (0 + 1) ≠ nn_ffnet_output_weights 2 1 1 0 := by
  decide

/-- C17 amended: with at least one hidden layer, or with `I = H`, the output
block has the same number of weights before and after growth. -/
theorem output_weights_unchanged (I H O L : Nat) (h : 0 < L ∨ I = H) :
    nn_ffnet_output_weights I H O (L + 1) = nn_ffnet_output_weights I H O L := by
  unfold nn_ffnet_output_weights
  rw [if_pos (by omega)]
  rcases h with h | h
  · rw [if_pos h]
  · subst h
    split_ifs <;> rfl

/-- C17 amended, at `I = 2`, `H = 4`, `O = 1`, `L = 1`. -/
theorem output_weights_unchanged_witness :
    nn_ffnet_output_weights 2 4 1 (1 + 1) = nn_ffnet_output_weights 2 4 1 1 :=
  output_weights_unchanged 2 4 1 1 (Or.inl (by decide))

/-- The converse of the equality above, for a positive output width: the two
counts differ with no hidden layer and `I ≠ H`. -/
theorem output_weights_unchanged_only_if (I H O L : Nat) (hO : 0 < O)
    (h : nn_ffnet_output_weights I H O (L + 1) = nn_ffnet_output_weights I H O L) :
    0 < L ∨ I = H := by
  by_cases hL : 0 < L
  · exact Or.inl hL
  · right
    unfold nn_ffnet_output_weights at h
    rw [if_pos (by omega), if_neg hL] at h
    have := Nat.eq_of_mul_eq_mul_right hO h
    omega

/-! ## Addressing is injective -/

theorem memcpy_whole {β : Type} (src : List β) (z : β) (n : Nat) (h : src.length = n) :
    memcpy (List.replicate n z) 0 src 0 n = some src := by
  unfold memcpy
  rw [if_pos ⟨by rw [List.length_replicate]; omega, by omega⟩]
  simp [← h]

theorem copy_eq_self {α : Type} [LinearOrderedField α] (net : nn_ffnet α)
    (hwf : well_formed net) (hI : 0 < net.ninputs) : nn_ffnet_copy net = some net := by
  obtain ⟨_, w2, _, w4, w5, w6⟩ := hwf
  unfold nn_ffnet_copy
  have hpos : 0 < 4 * (net.nweights + net.nneurons) + net.nactivations := by
    rw [w2, nn_ffnet_total_neurons]
    omega
  simp only [hpos, if_true, memcpy_whole _ _ _ w4, memcpy_whole _ _ _ w5,
    memcpy_whole _ _ _ w6]

/-- C15: for a network whose block matches its header (any topology with
`I > 0`, any weights, tags, bias and output values), `nn_ffnet_copy` returns a
network with the same topology scalars, counts, bias, weights, output values
and tags, and `nn_ffnet_run` on the copy and on the network give the same
result for every input vector; with valid tags and an input vector of length
`I` both runs return, with the same `O` values. -/
theorem copy_is_identical {α : Type} [LinearOrderedField α] (expf : α → α) (net : nn_ffnet α)
    (x : List α) (hwf : well_formed net) (hI : 0 < net.ninputs)
    (hv : ∀ t ∈ net.activation, valid_tag t) (hx : x.length = net.ninputs) :
    ∃ dup, nn_ffnet_copy net = some dup ∧
      dup.ninputs = net.ninputs ∧ dup.nhiddens = net.nhiddens ∧
      dup.noutputs = net.noutputs ∧ dup.nhidden_layers = net.nhidden_layers ∧
      dup.nweights = net.nweights ∧ dup.nneurons = net.nneurons ∧
      dup.nactivations = net.nactivations ∧ dup.bias = net.bias ∧
      dup.weight = net.weight ∧ dup.output = net.output ∧
      dup.activation = net.activation ∧
      (∀ y, nn_ffnet_run expf dup y = nn_ffnet_run expf net y) ∧
      ∃ r r1, nn_ffnet_run expf net x = some r ∧ nn_ffnet_run expf dup x = some r1 ∧
        run_view r1 = run_view r ∧ (run_view r).length = net.noutputs := by
  obtain ⟨v, hrun, hlen, _, _⟩ := run_spec expf net x hwf
    (fun t h => valid_tag_lt (hv t h)) (by omega)
  refine ⟨net, copy_eq_self net hwf hI, rfl, rfl, rfl, rfl, rfl, rfl, rfl, rfl, rfl, rfl, rfl,
    fun _ => rfl, _, _, hrun, hrun, rfl, ?_⟩
  show (List.take net.noutputs (List.drop _ v)).length = _
  rw [List.length_take, List.length_drop, hlen, hwf.2.1, nn_ffnet_total_neurons,
    Nat.mul_comm net.nhidden_layers]
  omega

/-- C15 at a network with `I = H = O = 1`, `L = 0`, bias 3, weights `[5, 6]`,
output values `[7, 8]` and a sigmoid output tag. -/
theorem copy_is_identical_witness :
    ∃ dup, nn_ffnet_copy
        ({ ninputs := 1, nhiddens := 1, noutputs := 1, nhidden_layers := 0, nweights := 2,
           nneurons := 2, nactivations := 1, bias := 3, weight := [5, 6], output := [7, 8],
           activation := [1] } : nn_ffnet ℚ) = some dup ∧
      dup.ninputs = 1 ∧ dup.nhiddens = 1 ∧ dup.noutputs = 1 ∧ dup.nhidden_layers = 0 ∧
      dup.nweights = 2 ∧ dup.nneurons = 2 ∧ dup.nactivations = 1 ∧ dup.bias = 3 ∧
      dup.weight = [5, 6] ∧ dup.output = [7, 8] ∧ dup.activation = [1] := by
  obtain ⟨dup, h, h1, h2, h3, h4, h5, h6, h7, h8, h9, h10, h11, _⟩ :=
    copy_is_identical (fun _ => (1 : ℚ))
      { ninputs := 1, nhiddens := 1, noutputs := 1, nhidden_layers := 0, nweights := 2,
        nneurons := 2, nactivations := 1, bias := 3, weight := [5, 6], output := [7, 8],
        activation := [1] } [4]
      ⟨rfl, rfl, rfl, rfl, rfl, rfl⟩ (by decide) (by decide) rfl
  exact ⟨dup, h, h1, h2, h3, h4, h5, h6, h7, h8, h9, h10, h11⟩

/-! ## The loops of `nn_ffnet_run` in `float` arithmetic -/

theorem exact_activate {α : Type} [LinearOrderedField α] (expf : α → α) (t : Nat) (x : α) :
    flt.nn_activate (exact_ops expf) t x = nn_activate expf t x := by
  unfold flt.nn_activate nn_activate flt.nn_sigmoid nn_sigmoid flt.nn_fast_sigmoid
    nn_fast_sigmoid flt.nn_relu nn_relu exact_ops
  simp only [decide_eq_true_eq, gt_iff_lt]

theorem exact_run_dot {α : Type} [LinearOrderedField α] (expf : α → α) (w out : List α)
    (input : Nat) : ∀ (n k weight : Nat) (sum : α),
      flt.run_dot (exact_ops expf) w out input n k weight sum =
        run_dot w out input n k weight sum
  | 0, _, _, _ => rfl
  | n + 1, k, weight, sum => by
    rw [flt.run_dot, run_dot]
    cases w[weight]? with
    | none => rfl
    | some wv =>
      cases out[input + k]? with
      | none => rfl
      | some iv => exact exact_run_dot expf w out input n (k + 1) (weight + 1) _

theorem exact_run_neuron {α : Type} [LinearOrderedField α] (expf : α → α) (net : nn_ffnet α)
    (input nweights : Nat) (c : run_cursor α) :
    flt.run_neuron (exact_ops expf) net input nweights c =
      run_neuron expf net input nweights c := by
  unfold flt.run_neuron run_neuron
  simp only [exact_run_dot, exact_activate]
  rfl

theorem exact_run_layer {α : Type} [LinearOrderedField α] (expf : α → α) (net : nn_ffnet α)
    (input nweights : Nat) : ∀ (n : Nat) (c : run_cursor α),
      flt.run_layer (exact_ops expf) net input nweights n c =
        run_layer expf net input nweights n c
  | 0, _ => rfl
  | n + 1, c => by
    rw [flt.run_layer, run_layer, exact_run_neuron]
    cases run_neuron expf net input nweights c with
    | none => rfl
    | some c1 => exact exact_run_layer expf net input nweights n c1

theorem exact_run_hidden {α : Type} [LinearOrderedField α] (expf : α → α) (net : nn_ffnet α) :
    ∀ (n i input : Nat) (c : run_cursor α),
      flt.run_hidden (exact_ops expf) net n i input c = run_hidden expf net n i input c
  | 0, _, _, _ => rfl
  | n + 1, i, input, c => by
    rw [flt.run_hidden, run_hidden]
    simp only [exact_run_layer]
    cases run_layer expf net input (if i = 0 then net.ninputs else net.nhiddens) net.nhiddens
        c with
    | none => rfl
    | some c1 => exact exact_run_hidden expf net n (i + 1) _ c1

/-- Over exact arithmetic the evaluation in `float` arithmetic is the
evaluation of the first part. -/
theorem exact_nn_ffnet_run {α : Type} [LinearOrderedField α] (expf : α → α) (net : nn_ffnet α)
    (inputs : List α) :
    flt.nn_ffnet_run (exact_ops expf) net inputs = nn_ffnet_run expf net inputs := by
  unfold flt.nn_ffnet_run nn_ffnet_run flt.run_scan run_scan
  simp only [exact_run_hidden, exact_run_layer]

/-! ## Laws of `float` arithmetic used below

The theorems of this part hold for every carrier and every `float_ops` that
satisfy the laws they take as hypotheses: for a predicate `finite` on values,
`0 * v = 0` for finite `v`, `1 * v = v`, `0 + v = v` and `v + 0 = v`. -/

theorem xfloat_one_eq {α : Type} [LinearOrderedField α] : (1 : xfloat α) = xfloat.fin 1 := rfl

theorem connected_loop_spec {α : Type} [LinearOrderedField α] (w : List α) :
    ∀ (n start c : Nat), start + n ≤ w.length →
      ∃ c1, connected_loop w n start c = some c1 ∧
        (c1 ≠ 0 ↔ c ≠ 0 ∨ ∃ k, k < n ∧ w.getD (start + k) 0 ≠ 0) := by
  intro n
  induction n with
  | zero =>
    intro start c _
    refine ⟨c, rfl, ?_⟩
    constructor
    · intro h
      exact Or.inl h
    · rintro (h | ⟨k, hk, _⟩)
      · exact h
      · omega
  | succ n ih =>
    intro start c hlen
    have h0 := getElem?_eq_some_getD w 0 (show start < w.length by omega)
    obtain ⟨c1, hrun, hiff⟩ := ih (start + 1)
      (c + if w.getD start 0 ≠ 0 then 1 else 0) (by omega)
    refine ⟨c1, ?_, ?_⟩
    · rw [connected_loop, h0]
      exact hrun
    · rw [hiff]
      have e : ∀ k, start + 1 + k = start + (k + 1) := fun k => by omega
      simp only [e]
      constructor
      · rintro (h | ⟨k, hk, hne⟩)
        · by_cases hw : w.getD start 0 ≠ 0
          · exact Or.inr ⟨0, by omega, hw⟩
          · rw [if_neg hw] at h
            exact Or.inl h
        · exact Or.inr ⟨k + 1, by omega, hne⟩
      · rintro (h | ⟨k, hk, hne⟩)
        · left
          omega
        · cases k with
          | zero =>
            left
            rw [Nat.add_zero] at hne
            rw [if_pos hne]
            omega
          | succ k => exact Or.inr ⟨k, by omega, hne⟩

theorem weight_run_le (I H O L l j : Nat)
    (hlj : (l < L ∧ j < H) ∨ (l = L ∧ j < O)) :
    nn_ffnet_hidden_weights I H 0 l + (j + 1) * (spec_fan_in I H l + 1) ≤
      nn_ffnet_total_weights I H O L := by
  unfold nn_ffnet_total_weights
  rw [hidden_weights_irrel I H O 0 L, output_weights_eq]
  rcases hlj with ⟨hl, hj⟩ | ⟨hl, hj⟩
  · have h1 := hidden_weights_succ I H 0 l
    have h2 := hidden_weights_mono I H 0 (show l + 1 ≤ L from hl)
    have h3 : (j + 1) * (spec_fan_in I H l + 1) ≤ H * (spec_fan_in I H l + 1) :=
      Nat.mul_le_mul_right _ hj
    omega
  · subst hl
    have h3 : (j + 1) * (spec_fan_in I H l + 1) ≤ O * (spec_fan_in I H l + 1) :=
      Nat.mul_le_mul_right _ hj
    omega

/-- With at least one hidden layer `nn_ffnet_neuron_is_connected` is true for an
input neuron and, for neuron `j` of layer `l`, true exactly when one of the
fan-in weights of its weight run is not zero. -/
theorem is_connected_with_hidden_layer {α : Type} [LinearOrderedField α] (net : nn_ffnet α)
    (hwf : well_formed net) (hL : 0 < net.nhidden_layers) :
    (∀ n, n < net.ninputs → nn_ffnet_neuron_is_connected net n = some true) ∧
      ∀ l j, (l < net.nhidden_layers ∧ j < net.nhiddens) ∨
          (l = net.nhidden_layers ∧ j < net.noutputs) →
        ∃ c, nn_ffnet_neuron_is_connected net (net.ninputs + l * net.nhiddens + j) = some c ∧
          (c = true ↔ ∃ k, k < spec_fan_in net.ninputs net.nhiddens l ∧
            net.weight.getD
              (spec_weight_start net.ninputs net.nhiddens net.noutputs net.nhidden_layers l j +
                1 + k) 0 ≠ 0) := by
  obtain ⟨w1, w2, _, w4, _, _⟩ := hwf
  have hnn : net.nneurons =
      net.ninputs + net.nhiddens * net.nhidden_layers + net.noutputs := w2
  constructor
  · intro n hn
    unfold nn_ffnet_neuron_is_connected
    rw [if_pos (by omega), if_pos hn]
  · intro l j hlj
    have hidx := layer_index_lt hlj
    have hl : l ≤ net.nhidden_layers := by rcases hlj with ⟨h, _⟩ | ⟨h, _⟩ <;> omega
    have hstart := weight_to_neuron_with_hidden_layer net l j hnn hL hlj
    have hle := weight_run_le net.ninputs net.nhiddens net.noutputs net.nhidden_layers l j hlj
    have hs := spec_weight_start_eq net.ninputs net.nhiddens net.noutputs net.nhidden_layers
      l j hl
    have hF : (if net.ninputs + l * net.nhiddens + j < net.ninputs + net.nhiddens then
        net.ninputs else net.nhiddens) = spec_fan_in net.ninputs net.nhiddens l := by
      unfold spec_fan_in
      by_cases h0 : l = 0
      · subst h0
        have hj : j < net.nhiddens := by
          rcases hlj with ⟨_, h⟩ | ⟨h, _⟩
          · exact h
          · omega
        rw [if_pos (by omega), if_pos rfl]
      · have h1 : net.nhiddens ≤ l * net.nhiddens :=
          Nat.le_mul_of_pos_left _ (Nat.pos_of_ne_zero h0)
        rw [if_neg (by omega), if_neg h0]
    have e1 : (j + 1) * (spec_fan_in net.ninputs net.nhiddens l + 1) =
        j * (spec_fan_in net.ninputs net.nhiddens l + 1) +
          spec_fan_in net.ninputs net.nhiddens l + 1 := by ring
    obtain ⟨c1, hloop, hiff⟩ := connected_loop_spec net.weight
      (spec_fan_in net.ninputs net.nhiddens l)
      (spec_weight_start net.ninputs net.nhiddens net.noutputs net.nhidden_layers l j + 1) 0
      (by rw [w4, w1, hs]; omega)
    refine ⟨c1 != 0, ?_, ?_⟩
    · unfold nn_ffnet_neuron_is_connected
      rw [if_pos (by omega), if_neg (by omega), hstart]
      dsimp only
      rw [hF, hloop]
    · rw [bne_iff_ne, hiff]
      simp

/-- C12 at `I = 2`, `H = 1`, `O = 2`, `L = 0`, weights `[0, 0, 0, 0, 0, 1]`, neuron 3
(output neuron 1, weight run 3, 4, 5, fan-in weights 4 and 5): the second fan-in
weight is 1, `nn_ffnet_run` on `[0, 1]` gives that neuron the value 1, and
`nn_ffnet_neuron_is_connected` returns false. -/
theorem is_connected_misses_fan_in_weight :
    spec_weight_start 2 1 2 0 0 1 = 3 ∧ spec_fan_in 2 1 0 = 2 ∧
      ([0, 0, 0, 0, 0, 1] : List ℚ)[spec_weight_start 2 1 2 0 0 1 + 1 + 1]? = some 1 ∧
      run_outputs no_exp (build 2 1 2 0 [0, 0, 0, 0, 0, 1] [0, 0] (-1)) [0, 1] = some [0, 1] ∧
      (build 2 1 2 0 [0, 0, 0, 0, 0, 1] [0, 0] (-1 : ℚ)).bind
        (fun n => nn_ffnet_neuron_is_connected n 3) = some false := by
  decide!

/-! ## Growth and the bias scalar -/

/-- Where growth returns (one hidden layer at least, or `I = H`), the network it
returns has bias scalar `-1`, the widths of the network it was given and one
hidden layer more, whatever bias scalar that network had. -/
theorem growth_resets_bias {α : Type} [LinearOrderedField α] (net : nn_ffnet α) (b fill : α)
    (hwf : well_formed net) (hI : 0 < net.ninputs) (hH : 0 < net.nhiddens)
    (hO : 0 < net.noutputs) (hL : 0 < net.nhidden_layers ∨ net.ninputs = net.nhiddens) :
    ∃ new, nn_ffnet_add_hidden_layer (nn_ffnet_set_bias net b) fill = some new ∧
      new.bias = -1 ∧ new.ninputs = net.ninputs ∧ new.nhiddens = net.nhiddens ∧
      new.noutputs = net.noutputs ∧ new.nhidden_layers = net.nhidden_layers + 1 := by
  obtain ⟨w3, act2, hrun, _⟩ :=
    add_hidden_layer_spec (nn_ffnet_set_bias net b) fill hwf hI hH hO hL
  exact ⟨_, hrun, rfl, rfl, rfl, rfl, rfl⟩

/-- Every network that `nn_ffnet_add_hidden_layer` returns has bias scalar `-1`,
the widths of the network it was given and one hidden layer more. -/
theorem growth_result_header {α : Type} [LinearOrderedField α] (net new : nn_ffnet α)
    (fill : α) (h : nn_ffnet_add_hidden_layer net fill = some new) :
    new.bias = -1 ∧ new.ninputs = net.ninputs ∧ new.nhiddens = net.nhiddens ∧
      new.noutputs = net.noutputs ∧ new.nhidden_layers = net.nhidden_layers + 1 := by
  unfold nn_ffnet_add_hidden_layer at h
  split at h
  · rename_i hH
    by_cases hp : 0 < net.ninputs ∧ 0 < net.noutputs
    · rw [create_some _ _ _ _ hp.1 hH hp.2] at h
      dsimp only at h
      repeat' split at h
      all_goals first
        | (exact Option.noConfusion h)
        | (rw [Option.some.injEq] at h; subst h; exact ⟨rfl, rfl, rfl, rfl, rfl⟩)
    · have hn : (nn_ffnet_create net.ninputs net.nhiddens net.noutputs
          (net.nhidden_layers + 1) : Option (nn_ffnet α)) = none := by
        unfold nn_ffnet_create
        rw [if_neg]
        intro hh
        exact hp ⟨hh.1, hh.2.1⟩
      rw [hn] at h
      exact Option.noConfusion h
  · exact Option.noConfusion h

/-- C19: every network that `nn_ffnet_add_hidden_layer` returns for a network
whose bias scalar was set to any `b` by `nn_ffnet_set_bias` has bias scalar
`-1`, the widths `I`, `H`, `O` of that network and one hidden layer more; and
for a well-formed network of positive widths with a hidden layer, or with
`I = H`, it does return one. -/
theorem growth_returns_default_bias {α : Type} [LinearOrderedField α] (net : nn_ffnet α)
    (b fill : α) :
    (∀ new, nn_ffnet_add_hidden_layer (nn_ffnet_set_bias net b) fill = some new →
        new.bias = -1 ∧ new.ninputs = net.ninputs ∧ new.nhiddens = net.nhiddens ∧
          new.noutputs = net.noutputs ∧ new.nhidden_layers = net.nhidden_layers + 1) ∧
      (well_formed net → 0 < net.ninputs → 0 < net.nhiddens → 0 < net.noutputs →
        (0 < net.nhidden_layers ∨ net.ninputs = net.nhiddens) →
        ∃ new, nn_ffnet_add_hidden_layer (nn_ffnet_set_bias net b) fill = some new) := by
  refine ⟨fun new h => growth_result_header (nn_ffnet_set_bias net b) new fill h, ?_⟩
  intro hwf hI hH hO hL
  obtain ⟨new, h, _⟩ := growth_resets_bias net b fill hwf hI hH hO hL
  exact ⟨new, h⟩

/-- C19 at the network of `I = 1`, `H = 2`, `O = 1`, `L = 1` with weights
`1, …, 7`, given bias scalar 3 and grown with fill weight 9. -/
theorem growth_returns_default_bias_witness :
    ∃ new : nn_ffnet ℚ,
      nn_ffnet_add_hidden_layer
          (nn_ffnet_set_bias
            ({ ninputs := 1, nhiddens := 2, noutputs := 1, nhidden_layers := 1, nweights := 7,
               nneurons := 4, nactivations := 3, bias := -1, weight := [1, 2, 3, 4, 5, 6, 7],
               output := [0, 0, 0, 0], activation := [0, 0, 0] } : nn_ffnet ℚ) 3) 9 = some new ∧
        new.bias = -1 ∧ new.ninputs = 1 ∧ new.nhiddens = 2 ∧ new.noutputs = 1 ∧
          new.nhidden_layers = 1 + 1 := by
  obtain ⟨new, h⟩ :=
    (growth_returns_default_bias
      ({ ninputs := 1, nhiddens := 2, noutputs := 1, nhidden_layers := 1, nweights := 7,
         nneurons := 4, nactivations := 3, bias := -1, weight := [1, 2, 3, 4, 5, 6, 7],
         output := [0, 0, 0, 0], activation := [0, 0, 0] } : nn_ffnet ℚ) 3 9).2
      (by unfold well_formed; decide) (by decide) (by decide) (by decide)
      (Or.inl (by decide))
  exact ⟨new, h,
    (growth_returns_default_bias
      ({ ninputs := 1, nhiddens := 2, noutputs := 1, nhidden_layers := 1, nweights := 7,
         nneurons := 4, nactivations := 3, bias := -1, weight := [1, 2, 3, 4, 5, 6, 7],
         output := [0, 0, 0, 0], activation := [0, 0, 0] } : nn_ffnet ℚ) 3 9).1 new h⟩
